import Mathlib

/-!
# bcwc_pcie: the S2 IOMMU allocator of `bcwc_buffer.c`

A shallow embedding of `iommu_allocate`, `iommu_allocate_sgtable`, `iommu_free`
and `bcwc_buffer_init`, and theorems about the page-range bookkeeping and the
page-table register writes they issue.

Conventions of the embedding.

* A C `int` is a Lean `Int`; an unsigned C value is a Lean `Nat`.
  Unsigned arithmetic wraps (`% 2^w`), a conversion to `int` reduces modulo
  `2^32` (the GCC rule).  Overflow of signed `int` arithmetic is undefined in C:
  an execution that reaches it has no result in the model (`none`).
* `resource_size_t`, `dma_addr_t` and `unsigned long long` are 64 bits wide
  (x86-64, the platform of the device); `sg_dma_len` is an `unsigned int`.
* `BCWC_S2_REG_WRITE (val, offset)` is recorded as the pair of its arguments,
  in issue order.
* `kzalloc` may fail; its outcome is an input of the functions that call it.
* In `iommu_allocate`, `iommu_free` and `bcwc_buffer_init` every `int` stays
  below `2^16` on the address space `[0, 4095]`, so these are total functions;
  only `iommu_allocate_sgtable` can reach an overflow.
-/

namespace Bcwc

/-! ## Data model -/

/-- The range of a `struct resource` (inclusive bounds, page units). -/
structure resource where
  start : Nat
  end_ : Nat
deriving DecidableEq

/-- The root resource `dev_priv->iommu` together with its list of child
resources, kept in increasing address order as the kernel keeps siblings. -/
structure root_resource where
  start : Nat
  end_ : Nat
  child : List resource
deriving DecidableEq

/-- A `struct iommu_obj`: the embedded resource and the two `int` fields. -/
structure iommu_obj where
  base : resource
  size : Int
  offset : Int
deriving DecidableEq

/-- One `BCWC_S2_REG_WRITE (val, offset)`. -/
structure reg_write where
  val : Nat
  offset : Int
deriving DecidableEq

/-- One entry of an `sg_table`: `sg_dma_address (sg)` and `sg_dma_len (sg)`.
`sg->offset` is only looked at by a `WARN_ON` and is left out. -/
structure scatterlist where
  dma_address : Nat
  dma_len : Nat
deriving DecidableEq

/-! ## Machine integers -/

/-- The largest `int`. -/
def INT_MAX : Int := 2147483647

/-- Conversion of an unsigned value to `int`: reduction modulo `2^32` into
`[-2^31, 2^31)`. -/
def to_int (x : Nat) : Int :=
  if x % 4294967296 < 2147483648 then ((x % 4294967296 : Nat) : Int)
  else ((x % 4294967296 : Nat) : Int) - 4294967296

/-- Conversion of an `int` to `unsigned int`. -/
def to_uint (x : Int) : Nat := (x % 4294967296).toNat

/-- Conversion of an `int` to the 64-bit `resource_size_t` (sign extension). -/
def to_resource_size (x : Int) : Nat := (x % 18446744073709551616).toNat

/-- The macro `GET_IOMMU_PAGES (_x)`, `(((_x) + 4095)/4096)`, evaluated in
`resource_size_t`. -/
def GET_IOMMU_PAGES (x : Nat) : Nat := ((x + 4095) % 18446744073709551616) / 4096

/-! ## The kernel resource allocator -/

/-- Modelled from the spec: the search of `allocate_resource`, which is not
part of this repository.  It is the first-fit walk over the children, in
address order: `cur` is the first index not yet ruled out.  Returns the granted
resource and the child list with it inserted in place. -/
def find_resource (hi size : Nat) : Nat → List resource → Option (resource × List resource)
  | cur, [] =>
    if cur + size ≤ hi + 1 then some (⟨cur, cur + size - 1⟩, [⟨cur, cur + size - 1⟩])
    else none
  | cur, c :: rest =>
    if cur + size ≤ c.start then
      some (⟨cur, cur + size - 1⟩, ⟨cur, cur + size - 1⟩ :: c :: rest)
    else
      match find_resource hi size (c.end_ + 1) rest with
      | none => none
      | some (new, rest') => some (new, c :: rest')

/-- Modelled from the spec: `allocate_resource (root, new, size, root->start,
root->end, 1, NULL, NULL)` is the Linux kernel's resource allocator and is not
part of this repository.  It is the Region Allocator's `allocate` of the spec:
it finds a first-fit free sub-range of exactly `size` contiguous slots within
`[root.start, root.end]`, marks it occupied and returns it; it fails when
`size` is 0 or no sufficiently large free run exists, leaving the root as it
was.  (The rejection of more than 4095 pages is the caller's test in
`iommu_allocate` and is embedded there.) -/
def allocate_resource (root : root_resource) (size : Nat) : Option (resource × root_resource) :=
  if size = 0 then none
  else
    match find_resource root.end_ size root.start root.child with
    | none => none
    | some (new, child') => some (new, { root with child := child' })

/-- Modelled from the spec: `release_resource (&obj->base)` is the Linux
kernel's counterpart of `allocate_resource` and is not part of this
repository.  It is the Region Allocator's `release`: the sub-range of the given
resource is marked free again, the other children stay. -/
def release_resource (root : root_resource) (old : resource) : root_resource :=
  { root with child := root.child.erase old }

/-! ## The functions of `bcwc_buffer.c` -/

/-- The function `iommu_allocator_init`: `kzalloc` of the root, then
`start = 0`, `end = 4095`; `none` stands for `-ENOMEM`. -/
def iommu_allocator_init (kzalloc_ok : Bool) : Option root_resource :=
  if kzalloc_ok then some { start := 0, end_ := 4095, child := [] } else none

/-- The loop of `iommu_allocate`,
`for (i = obj->offset, j = 0; i < obj->offset + obj->size; i++, j++)
   BCWC_S2_REG_WRITE ((phys_addr >> 12) + j, 0x9000 + i * 4);`
with `stop = obj->offset + obj->size`.  The first argument bounds the number of
iterations; `obj->size` of them are enough. -/
def iommu_allocate_loop (phys_addr : Nat) (stop : Int) : Nat → Int → Int → List reg_write
  | 0, _, _ => []
  | fuel + 1, i, j =>
    if i < stop then
      ⟨(phys_addr >>> 12) + j.toNat, 0x9000 + i * 4⟩ ::
        iommu_allocate_loop phys_addr stop fuel (i + 1) (j + 1)
    else []

/-- The function `iommu_allocate (dev_priv, size, phys_addr)`.  The result is
the returned object (`none` for `NULL`), the root resource afterwards and the
register writes issued.  `obj->offset = obj->base.start - root->start` is a
`resource_size_t` difference converted to `int`. -/
def iommu_allocate (kzalloc_ok : Bool) (root : root_resource) (size phys_addr : Nat) :
    Option iommu_obj × root_resource × List reg_write :=
  let pages : Int := to_int (GET_IOMMU_PAGES size)
  if pages = 0 ∨ pages > 4095 then (none, root, [])
  else if !kzalloc_ok then (none, root, [])
  else
    match allocate_resource root (to_resource_size pages) with
    | none => (none, root, [])
    | some (base, root') =>
      let offset : Int :=
        to_int ((base.start + 18446744073709551616 - root.start) % 18446744073709551616)
      let obj : iommu_obj := { base := base, size := pages, offset := offset }
      (some obj, root',
        iommu_allocate_loop phys_addr (obj.offset + obj.size) obj.size.toNat obj.offset 0)

/-- The first loop of `iommu_allocate_sgtable`,
`total_len += sg_dma_len (sgtable->sgl + i)`: an `int` plus an `unsigned int`
is added as `unsigned int` and converted back. -/
def sg_total_len : List scatterlist → Int → Int
  | [], total_len => total_len
  | sg :: rest, total_len =>
    sg_total_len rest (to_int ((to_uint total_len + sg.dma_len) % 4294967296))

/-- The inner loop of `iommu_allocate_sgtable` for one segment,
`for (dma_length = 0; dma_length < sg_dma_len (sg); dma_length += 0x1000)
   { BCWC_S2_REG_WRITE (dma_addr++, pos); pos += 4; }`.
The result is the final `pos` and the writes; `none` when an `int` overflows.
The first argument bounds the number of iterations.  (`dma_addr` is a 64-bit
address shifted right by 12: incrementing it fewer than `2^31` times cannot
wrap.) -/
def sg_segment_loop (len : Nat) : Nat → Int → Nat → Int → Option (Int × List reg_write)
  | 0, _, _, _ => none
  | fuel + 1, dma_length, dma_addr, pos =>
    if to_uint dma_length < len then
      if pos + 4 > INT_MAX ∨ dma_length + 0x1000 > INT_MAX then none
      else
        match sg_segment_loop len fuel (dma_length + 0x1000) (dma_addr + 1) (pos + 4) with
        | none => none
        | some (pos', ws) => some (pos', ⟨dma_addr, pos⟩ :: ws)
    else some (pos, [])

/-- The outer loop of `iommu_allocate_sgtable` over the entries of the table:
`dma_addr = sg_dma_address (sg); dma_addr >>= 12;` and the inner loop. -/
def sg_loop : List scatterlist → Int → Option (List reg_write)
  | [], _ => some []
  | sg :: rest, pos =>
    match sg_segment_loop sg.dma_len (sg.dma_len / 4096 + 2) 0 (sg.dma_address >>> 12) pos with
    | none => none
    | some (pos', ws) =>
      match sg_loop rest pos' with
      | none => none
      | some ws' => some (ws ++ ws')

/-- The function `iommu_allocate_sgtable (dev_priv, sgtable)`.  The result is
`none` when the execution has no defined result, otherwise the returned object
(`none` for `NULL`), the root resource afterwards and the register writes. -/
def iommu_allocate_sgtable (kzalloc_ok : Bool) (root : root_resource)
    (sgtable : List scatterlist) :
    Option (Option iommu_obj × root_resource × List reg_write) :=
  let total_len : Int := sg_total_len sgtable 0
  if total_len = 0 then some (none, root, [])
  else if total_len + 4095 > INT_MAX then none
  else
    let total_len : Int := Int.tdiv (total_len + 4095) 4096
    if !kzalloc_ok then some (none, root, [])
    else
      match allocate_resource root (to_resource_size total_len) with
      | none => some (none, root, [])
      | some (base, root') =>
        let offset : Int :=
          to_int ((base.start + 18446744073709551616 - root.start) % 18446744073709551616)
        let obj : iommu_obj := { base := base, size := total_len, offset := offset }
        if 0x9000 + obj.offset * 4 > INT_MAX then none
        else
          match sg_loop sgtable (0x9000 + obj.offset * 4) with
          | none => none
          | some ws => some (some obj, root', ws)

/-- The loop of `iommu_free`,
`for (i = obj->offset; i < obj->offset + obj->size; i++)
   BCWC_S2_REG_WRITE (0, 0x9000 + i * 4);`. -/
def iommu_free_loop (stop : Int) : Nat → Int → List reg_write
  | 0, _ => []
  | fuel + 1, i =>
    if i < stop then ⟨0, 0x9000 + i * 4⟩ :: iommu_free_loop stop fuel (i + 1) else []

/-- The function `iommu_free (dev_priv, obj)`; `none` is the `NULL` object. -/
def iommu_free (root : root_resource) : Option iommu_obj → root_resource × List reg_write
  | none => (root, [])
  | some obj =>
    (release_resource root obj.base,
      iommu_free_loop (obj.offset + obj.size) obj.size.toNat obj.offset)

/-- The loop of `bcwc_buffer_init`,
`for (i = 0; i < 0x1000; i++) BCWC_S2_REG_WRITE (0, 0x9000 + i * 4);`. -/
def bcwc_buffer_init_loop : Nat → Int → List reg_write
  | 0, _ => []
  | fuel + 1, i =>
    if i < 0x1000 then ⟨0, 0x9000 + i * 4⟩ :: bcwc_buffer_init_loop fuel (i + 1) else []

/-- The function `bcwc_buffer_init (dev_priv)`: the writes of the loop, then
the result of `iommu_allocator_init`. -/
def bcwc_buffer_init (kzalloc_ok : Bool) : Option root_resource × List reg_write :=
  (iommu_allocator_init kzalloc_ok, bcwc_buffer_init_loop 0x1000 0)

/-! ## Occupancy, states and runs -/

/-- The children are in increasing address order, pairwise disjoint, non-empty
and inside `[lo, hi]`. -/
def children_ok (hi : Nat) : Nat → List resource → Bool
  | _, [] => true
  | lo, c :: rest =>
    decide (lo ≤ c.start) && decide (c.start ≤ c.end_) && decide (c.end_ ≤ hi) &&
      children_ok hi (c.end_ + 1) rest

/-- A well-formed address space: the range `[0, 4095]` set up by
`iommu_allocator_init` and a well-formed child list. -/
def root_ok (root : root_resource) : Bool :=
  decide (root.start = 0) && decide (root.end_ = 4095) &&
    children_ok root.end_ root.start root.child

/-- Page index `p` is occupied: it lies in one of the children. -/
def occupied (root : root_resource) (p : Nat) : Bool :=
  root.child.any (fun c => decide (c.start ≤ p) && decide (p ≤ c.end_))

/-- The `n` page indices from `s` on lie inside the range and are all free. -/
def free_run (root : root_resource) (s n : Nat) : Prop :=
  root.start ≤ s ∧ s + n ≤ root.end_ + 1 ∧ ∀ p, s ≤ p → p < s + n → occupied root p = false

/-- The address space has `n` contiguous free page indices somewhere: `n` does
not exceed its largest contiguous free run. -/
def has_free_run (root : root_resource) (n : Nat) : Prop := ∃ s, free_run root s n

/-- Page index `i` lies in the range `[offset, offset + size)` of the object. -/
def in_range (obj : iommu_obj) (i : Int) : Prop :=
  obj.offset ≤ i ∧ i < obj.offset + obj.size

/-- The page ranges of two objects do not meet. -/
def obj_disjoint (a b : iommu_obj) : Prop :=
  a.offset + a.size ≤ b.offset ∨ b.offset + b.size ≤ a.offset

/-- The last value written to the register at byte offset `off`, if any. -/
def last_write : List reg_write → Int → Option Nat
  | [], _ => none
  | w :: ws, off =>
    match last_write ws off with
    | some v => some v
    | none => if w.offset = off then some w.val else none

/-- The hardware table after the writes `ws`: the entry of page index `i` is
the last value written to `0x9000 + 4 * i`. -/
def table_entry (ws : List reg_write) (i : Int) : Option Nat :=
  last_write ws (0x9000 + 4 * i)

/-- The write targets an entry of the page table: its byte offset is
`0x9000 + 4 * i` for a page index `i` in `[0, 4096)`, a multiple of 4 inside
`[0x9000, 0x9000 + 4096 * 4)`. -/
def in_table (w : reg_write) : Prop :=
  ∃ i : Int, 0 ≤ i ∧ i < 4096 ∧ w.offset = 0x9000 + 4 * i

/-- The page count of `iommu_allocate_sgtable`: the value of `total_len` after
`total_len += 4095; total_len /= 4096;` (C division truncates towards 0). -/
def sg_pages (sgtable : List scatterlist) : Int :=
  Int.tdiv (sg_total_len sgtable 0 + 4095) 4096

/-- The byte total of the table, the sum of the segment lengths. -/
def sg_byte_total (sgtable : List scatterlist) : Nat := (sgtable.map scatterlist.dma_len).sum

/-- The number of 4096-byte strides of the table: the sum over the segments of
`ceil (len / 4096)`. -/
def sg_strides (sgtable : List scatterlist) : Nat :=
  (sgtable.map (fun sg => (sg.dma_len + 4095) / 4096)).sum

/-- The values one segment contributes to the page table, as the claims state
them: one per 4096-byte stride of its length, counting up from the physical
page number of its address. -/
def segment_values (sg : scatterlist) : List Nat :=
  (List.range ((sg.dma_len + 4095) / 4096)).map (fun j => (sg.dma_address >>> 12) + j)

/-- The driver state: the address space and the objects handed out and not
yet freed. -/
structure State where
  root : root_resource
  live : List iommu_obj
deriving DecidableEq

/-- A call of the driver. -/
inductive Op where
  | allocate (kzalloc_ok : Bool) (size phys_addr : Nat)
  | allocate_sgtable (kzalloc_ok : Bool) (sgtable : List scatterlist)
  | free (obj : iommu_obj)

/-- The state after `bcwc_buffer_init` succeeded: range `[0, 4095]`, nothing
allocated. -/
def initial_state : State := { root := { start := 0, end_ := 4095, child := [] }, live := [] }

/-- The state after a map call returned: a returned object becomes live. -/
def record_result (s : State) (r : Option iommu_obj × root_resource × List reg_write) :
    State × List reg_write :=
  match r with
  | (none, root', ws) => ({ root := root', live := s.live }, ws)
  | (some obj, root', ws) => ({ root := root', live := obj :: s.live }, ws)

/-- One call: the next state and the register writes.  `none` when the call is
a free of an object that is not live, or has no defined result. -/
def step (s : State) : Op → Option (State × List reg_write)
  | .allocate kz size phys_addr => some (record_result s (iommu_allocate kz s.root size phys_addr))
  | .allocate_sgtable kz sgtable =>
    (iommu_allocate_sgtable kz s.root sgtable).map (record_result s)
  | .free obj =>
    if obj ∈ s.live then
      some ({ root := (iommu_free s.root (some obj)).1, live := s.live.erase obj },
        (iommu_free s.root (some obj)).2)
    else none

/-- A finite sequence of calls: the final state and all register writes, in
issue order. -/
def run (s : State) : List Op → Option (State × List reg_write)
  | [] => some (s, [])
  | op :: ops =>
    match step s op with
    | none => none
    | some (s', ws) =>
      match run s' ops with
      | none => none
      | some (s'', ws') => some (s'', ws ++ ws')

/-- The object agrees with the address space: its resource is a child of the
root and its `offset` and `size` describe that child. -/
def obj_ok (root : root_resource) (obj : iommu_obj) : Prop :=
  obj.base ∈ root.child ∧ obj.offset = (obj.base.start : Int) ∧
    obj.offset + obj.size = (obj.base.end_ : Int) + 1 ∧ 1 ≤ obj.size

/-- The invariant of the driver state: a well-formed address space whose
children are exactly the resources of the live objects, which are pairwise
disjoint. -/
def Inv (s : State) : Prop :=
  root_ok s.root = true ∧ (∀ o ∈ s.live, obj_ok s.root o) ∧
    (∀ c ∈ s.root.child, ∃ o ∈ s.live, o.base = c) ∧ s.live.Pairwise obj_disjoint

/-! ## The allocator -/

theorem children_ok_cons (hi lo : Nat) (c : resource) (rest : List resource) :
    children_ok hi lo (c :: rest) = true ↔
      lo ≤ c.start ∧ c.start ≤ c.end_ ∧ c.end_ ≤ hi ∧ children_ok hi (c.end_ + 1) rest = true := by
  simp [children_ok, and_assoc]

theorem children_ok_weaken (hi : Nat) (l : List resource) (lo lo' : Nat) (hle : lo' ≤ lo)
    (h : children_ok hi lo l = true) : children_ok hi lo' l = true := by
  cases l with
  | nil => simp [children_ok]
  | cons c rest =>
    rw [children_ok_cons] at h ⊢
    exact ⟨by omega, h.2.1, h.2.2.1, h.2.2.2⟩

theorem children_ok_mem (hi : Nat) (l : List resource) (lo : Nat)
    (h : children_ok hi lo l = true) (c : resource) (hc : c ∈ l) :
    lo ≤ c.start ∧ c.start ≤ c.end_ ∧ c.end_ ≤ hi := by
  induction l generalizing lo with
  | nil => simp at hc
  | cons d rest ih =>
    rw [children_ok_cons] at h
    rcases List.mem_cons.1 hc with rfl | hc
    · exact ⟨h.1, h.2.1, h.2.2.1⟩
    · have := ih (c.start - c.start + (d.end_ + 1)) (by simpa using h.2.2.2) hc
      omega

/-- What a successful walk grants: `size` indices from `new.start` on, inside
the range and clear of every child, with the new child list again well formed.
-/
theorem find_resource_spec (hi size : Nat) (hsize : 0 < size) (l : List resource) (cur : Nat)
    (hok : children_ok hi cur l = true) (new : resource) (l' : List resource)
    (h : find_resource hi size cur l = some (new, l')) :
    cur ≤ new.start ∧ new.end_ + 1 = new.start + size ∧ new.end_ ≤ hi ∧
      children_ok hi cur l' = true ∧ (∀ c, c ∈ l' ↔ c = new ∨ c ∈ l) ∧
      (∀ c ∈ l, c.end_ < new.start ∨ new.end_ < c.start) ∧ l'.erase new = l := by
  induction l generalizing cur l' with
  | nil =>
    simp only [find_resource] at h
    split at h
    · simp only [Option.some.injEq, Prod.mk.injEq] at h
      obtain ⟨rfl, rfl⟩ := h
      refine ⟨le_refl _, by simp; omega, by simp; omega, ?_, by simp, by simp, by simp⟩
      rw [children_ok_cons]
      simp [children_ok]; omega
    · simp at h
  | cons d rest ih =>
    rw [children_ok_cons] at hok
    simp only [find_resource] at h
    split at h
    · simp only [Option.some.injEq, Prod.mk.injEq] at h
      obtain ⟨rfl, rfl⟩ := h
      refine ⟨le_refl _, by simp; omega, by simp; omega, ?_, by simp, ?_, by simp⟩
      · rw [children_ok_cons, children_ok_cons]
        refine ⟨le_refl _, ?_, ?_, ?_, hok.2.1, hok.2.2.1, hok.2.2.2⟩ <;> simp <;> omega
      · intro c hc
        have hb := children_ok_mem hi (d :: rest) cur (by rw [children_ok_cons]; exact hok) c hc
        rcases List.mem_cons.1 hc with rfl | hc'
        · right; simp; omega
        · have := children_ok_mem hi rest _ hok.2.2.2 c hc'
          right; simp; omega
    · rename_i hgap
      cases hrec : find_resource hi size (d.end_ + 1) rest with
      | none => simp [hrec] at h
      | some p =>
        obtain ⟨n, r'⟩ := p
        simp only [hrec, Option.some.injEq, Prod.mk.injEq] at h
        obtain ⟨rfl, rfl⟩ := h
        obtain ⟨h1, h2, h3, h4, h5, h6, h7⟩ := ih (d.end_ + 1) hok.2.2.2 r' hrec
        refine ⟨by omega, h2, h3, ?_, ?_, ?_, ?_⟩
        · rw [children_ok_cons]; exact ⟨hok.1, hok.2.1, hok.2.2.1, h4⟩
        · intro c; simp [h5]; tauto
        · intro c hc
          rcases List.mem_cons.1 hc with rfl | hc'
          · left; omega
          · exact h6 c hc'
        · have hne : d ≠ n := by
            intro e; subst e; omega
          rw [List.erase_cons_tail (by simpa using hne), h7]

/-- The walk succeeds, no higher than `s`, whenever `size` free indices start
at some `s` not below `cur`: it is first-fit. -/
theorem find_resource_complete (hi size : Nat) (l : List resource) (cur s : Nat)
    (hs : cur ≤ s) (hhi : s + size ≤ hi + 1)
    (hfree : ∀ c ∈ l, c.end_ < s ∨ s + size ≤ c.start) :
    ∃ new l', find_resource hi size cur l = some (new, l') ∧ new.start ≤ s := by
  induction l generalizing cur with
  | nil =>
    refine ⟨⟨cur, cur + size - 1⟩, [⟨cur, cur + size - 1⟩], ?_, hs⟩
    simp only [find_resource]
    rw [if_pos (by omega)]
  | cons d rest ih =>
    simp only [find_resource]
    split
    · exact ⟨_, _, rfl, hs⟩
    · rename_i hgap
      have hd := hfree d (List.mem_cons_self _ _)
      obtain ⟨n, r', hrec, hle⟩ := ih (d.end_ + 1) (by omega)
        (fun c hc => hfree c (List.mem_cons_of_mem _ hc))
      exact ⟨n, d :: r', by simp [hrec], hle⟩

/-! ## `iommu_allocate` -/

theorem to_int_of_lt (x : Nat) (h : x < 2147483648) : to_int x = (x : Int) := by
  unfold to_int
  have : x % 4294967296 = x := Nat.mod_eq_of_lt (by omega)
  rw [this, if_pos h]

theorem to_resource_size_of_nonneg (p : Int) (h0 : 0 ≤ p) (h1 : p < 18446744073709551616) :
    to_resource_size p = p.toNat := by
  unfold to_resource_size
  rw [Int.emod_eq_of_lt h0 h1]

theorem to_int_bounds (x : Nat) : -2147483648 ≤ to_int x ∧ to_int x < 2147483648 := by
  unfold to_int
  split <;> omega

/-- The writes of the loop of `iommu_allocate`, in closed form. -/
theorem iommu_allocate_loop_eq (phys_addr : Nat) (n : Nat) (i : Int) (j : Nat) :
    iommu_allocate_loop phys_addr (i + n) n i j =
      (List.range n).map
        (fun k => ⟨(phys_addr >>> 12) + (j + k), 0x9000 + (i + (k : Nat)) * 4⟩) := by
  induction n generalizing i j with
  | zero => simp [iommu_allocate_loop]
  | succ n ih =>
    simp only [iommu_allocate_loop]
    rw [if_pos (by omega)]
    have h1 : i + ((n + 1 : Nat) : Int) = (i + 1) + (n : Int) := by push_cast; ring
    have h2 : (j : Int) + 1 = ((j + 1 : Nat) : Int) := by push_cast; ring
    rw [h1, h2, ih (i + 1) (j + 1), List.range_succ_eq_map, List.map_cons, List.map_map]
    congr 1
    · simp
    · apply List.map_congr_left
      intro k _
      simp only [Function.comp, reg_write.mk.injEq]
      constructor
      · omega
      · push_cast; ring

theorem root_ok_iff (root : root_resource) :
    root_ok root = true ↔
      root.start = 0 ∧ root.end_ = 4095 ∧ children_ok 4095 0 root.child = true := by
  unfold root_ok
  simp only [Bool.and_eq_true, decide_eq_true_eq, and_assoc]
  constructor
  · rintro ⟨h1, h2, h3⟩
    rw [h1, h2] at h3
    exact ⟨h1, h2, h3⟩
  · rintro ⟨h1, h2, h3⟩
    rw [h1, h2]
    exact ⟨rfl, rfl, h3⟩

/-- What a successful `allocate_resource` grants in a well-formed address space. -/
theorem allocate_resource_spec (root : root_resource) (hok : root_ok root = true) (size : Nat)
    (new : resource) (root' : root_resource)
    (h : allocate_resource root size = some (new, root')) :
    0 < size ∧ new.end_ + 1 = new.start + size ∧ new.end_ ≤ 4095 ∧ root_ok root' = true ∧
      (∀ c, c ∈ root'.child ↔ c = new ∨ c ∈ root.child) ∧
      (∀ c ∈ root.child, c.end_ < new.start ∨ new.end_ < c.start) ∧
      root'.child.erase new = root.child := by
  obtain ⟨hs, he, hch⟩ := (root_ok_iff root).1 hok
  unfold allocate_resource at h
  split at h
  · simp at h
  · rename_i hsz
    cases hf : find_resource root.end_ size root.start root.child with
    | none => simp [hf] at h
    | some p =>
      obtain ⟨n, l'⟩ := p
      simp only [hf, Option.some.injEq, Prod.mk.injEq] at h
      obtain ⟨rfl, rfl⟩ := h
      rw [hs, he] at hf
      obtain ⟨h1, h2, h3, h4, h5, h6, h7⟩ :=
        find_resource_spec 4095 size (by omega) root.child 0 hch n l' hf
      refine ⟨by omega, h2, h3, ?_, h5, h6, h7⟩
      rw [root_ok_iff]
      exact ⟨hs, he, h4⟩

/-- The success path of `iommu_allocate`, read off the code. -/
theorem iommu_allocate_some (kz : Bool) (root : root_resource) (hok : root_ok root = true)
    (size phys_addr : Nat) (obj : iommu_obj) (root' : root_resource) (ws : List reg_write)
    (h : iommu_allocate kz root size phys_addr = (some obj, root', ws)) :
    kz = true ∧ obj.size = to_int (GET_IOMMU_PAGES size) ∧ 1 ≤ obj.size ∧ obj.size ≤ 4095 ∧
      allocate_resource root obj.size.toNat = some (obj.base, root') ∧
      obj.offset = (obj.base.start : Int) ∧
      ws = iommu_allocate_loop phys_addr (obj.offset + obj.size) obj.size.toNat obj.offset 0 := by
  have hb := to_int_bounds (GET_IOMMU_PAGES size)
  obtain ⟨hs, he, hch⟩ := (root_ok_iff root).1 hok
  unfold iommu_allocate at h
  simp only at h
  split at h
  · simp at h
  · rename_i hp
    split at h
    · simp at h
    · rename_i hkz
      split at h
      · simp at h
      · rename_i base r' halloc
        simp only [Prod.mk.injEq, Option.some.injEq] at h
        obtain ⟨h1, h2, h3⟩ := h
        subst h1 h2 h3
        have hsp := allocate_resource_spec root hok _ base r' halloc
        have hpos : 1 ≤ to_int (GET_IOMMU_PAGES size) := by
          by_contra hneg
          have hlt : to_int (GET_IOMMU_PAGES size) < 0 := by omega
          have : to_resource_size (to_int (GET_IOMMU_PAGES size)) ≥ 4097 := by
            unfold to_resource_size
            omega
          omega
        rw [to_resource_size_of_nonneg _ (by omega) (by omega)] at halloc
        have hoff : to_int ((base.start + 18446744073709551616 - root.start) %
            18446744073709551616) = (base.start : Int) := by
          rw [hs, Nat.sub_zero, Nat.add_mod_right, Nat.mod_eq_of_lt (by omega),
      to_int_of_lt _ (by omega)]
        dsimp only
        refine ⟨by simpa using hkz, rfl, hpos, by omega, halloc, hoff, ?_⟩
        rw [hoff]

/-! ## `iommu_allocate_sgtable` -/

theorem to_uint_of_nonneg (x : Int) (h0 : 0 ≤ x) (h1 : x < 4294967296) : to_uint x = x.toNat := by
  unfold to_uint
  rw [Int.emod_eq_of_lt h0 h1]

/-- The writes of the inner loop of `iommu_allocate_sgtable`, in closed form:
one per 4096-byte stride still to go. -/
theorem sg_segment_loop_eq (len : Nat) (fuel : Nat) (dma_length : Int) (dma_addr : Nat) (pos : Int)
    (h0 : 0 ≤ dma_length) (h1 : dma_length ≤ INT_MAX) (hpos : pos ≤ INT_MAX) (pos' : Int)
    (ws : List reg_write)
    (h : sg_segment_loop len fuel dma_length dma_addr pos = some (pos', ws)) :
    ws = (List.range ((len - dma_length.toNat + 4095) / 4096)).map
        (fun k => ⟨dma_addr + k, pos + 4 * (k : Nat)⟩) ∧
      pos' = pos + 4 * (((len - dma_length.toNat + 4095) / 4096 : Nat) : Int) ∧
      pos' ≤ INT_MAX := by
  induction fuel generalizing dma_length dma_addr pos pos' ws with
  | zero => simp [sg_segment_loop] at h
  | succ fuel ih =>
    unfold INT_MAX at h1
    have hu : to_uint dma_length = dma_length.toNat := to_uint_of_nonneg _ h0 (by omega)
    simp only [sg_segment_loop, hu] at h
    split at h
    · rename_i hlt
      split at h
      · simp at h
      · rename_i hov
        unfold INT_MAX at hov
        cases hrec : sg_segment_loop len fuel (dma_length + 0x1000) (dma_addr + 1) (pos + 4) with
        | none => simp [hrec] at h
        | some p =>
          obtain ⟨p', ws'⟩ := p
          simp only [hrec, Option.some.injEq, Prod.mk.injEq] at h
          obtain ⟨rfl, rfl⟩ := h
          obtain ⟨e1, e2, e3⟩ := ih (dma_length + 0x1000) (dma_addr + 1) (pos + 4) (by omega)
            (by unfold INT_MAX; omega) (by unfold INT_MAX; omega) p' ws' hrec
          have hn : (len - dma_length.toNat + 4095) / 4096 =
              (len - (dma_length + 0x1000).toNat + 4095) / 4096 + 1 := by omega
          rw [hn, List.range_succ_eq_map, List.map_cons, List.map_map]
          refine ⟨?_, ?_, e3⟩
          · congr 1
            · simp
            · rw [e1]
              apply List.map_congr_left
              intro k _
              simp only [Function.comp, reg_write.mk.injEq]
              constructor
              · omega
              · push_cast; ring
          · rw [e2]; push_cast; ring
    · rename_i hge
      simp only [Option.some.injEq, Prod.mk.injEq] at h
      obtain ⟨rfl, rfl⟩ := h
      have hn : (len - dma_length.toNat + 4095) / 4096 = 0 := by omega
      rw [hn]
      exact ⟨by simp, by simp, hpos⟩

/-- The writes of the outer loop: the values segment by segment, the offsets
counting on from `pos` in steps of 4. -/
theorem sg_loop_eq (sgtable : List scatterlist) (pos : Int) (hpos : pos ≤ INT_MAX)
    (ws : List reg_write) (h : sg_loop sgtable pos = some ws) :
    ws.map reg_write.val = sgtable.flatMap segment_values ∧
      ws.map reg_write.offset = (List.range ws.length).map (fun k => pos + 4 * (k : Nat)) := by
  induction sgtable generalizing pos ws with
  | nil =>
    simp only [sg_loop, Option.some.injEq] at h
    subst h
    simp
  | cons sg rest ih =>
    simp only [sg_loop] at h
    cases hseg : sg_segment_loop sg.dma_len (sg.dma_len / 4096 + 2) 0
        (sg.dma_address >>> 12) pos with
    | none => simp [hseg] at h
    | some p =>
      obtain ⟨pos', ws1⟩ := p
      simp only [hseg] at h
      cases hrest : sg_loop rest pos' with
      | none => simp [hrest] at h
      | some ws2 =>
        simp only [hrest, Option.some.injEq] at h
        subst h
        obtain ⟨e1, e2, e3⟩ := sg_segment_loop_eq sg.dma_len _ 0 (sg.dma_address >>> 12) pos
          (le_refl _) (by unfold INT_MAX; omega) hpos pos' ws1 hseg
        obtain ⟨f1, f2⟩ := ih pos' e3 ws2 hrest
        simp only [Int.toNat_zero, Nat.sub_zero] at e1 e2
        have hl1 : ws1.length = (sg.dma_len + 4095) / 4096 := by rw [e1]; simp
        constructor
        · rw [List.map_append, f1, List.flatMap_cons, e1]
          simp [segment_values]
        · rw [List.map_append, f2, List.length_append, List.range_add, List.map_append,
            List.map_map, hl1]
          congr 1
          · rw [e1]; simp
          · apply List.map_congr_left
            intro k _
            simp only [Function.comp]
            rw [e2]; push_cast; ring

theorem tdiv_4096_cases (a : Int) :
    (0 ≤ a ∧ Int.tdiv a 4096 = a / 4096) ∨ (a < 0 ∧ Int.tdiv a 4096 = -((-a) / 4096)) := by
  by_cases h : 0 ≤ a
  · exact Or.inl ⟨h, Int.tdiv_eq_ediv h (by omega)⟩
  · right
    refine ⟨by omega, ?_⟩
    have h1 : Int.tdiv a 4096 = -Int.tdiv (-a) 4096 := by
      rw [Int.neg_tdiv, neg_neg]
    rw [h1, Int.tdiv_eq_ediv (by omega) (by omega)]

theorem sg_total_len_bounds (sgtable : List scatterlist) (t : Int)
    (ht : -2147483648 ≤ t ∧ t < 2147483648) :
    -2147483648 ≤ sg_total_len sgtable t ∧ sg_total_len sgtable t < 2147483648 := by
  induction sgtable generalizing t with
  | nil => simpa [sg_total_len] using ht
  | cons sg rest ih =>
    simp only [sg_total_len]
    exact ih _ (to_int_bounds _)

theorem to_resource_size_neg (p : Int) (h0 : p < 0) (h1 : -2147483648 ≤ p) :
    4097 ≤ to_resource_size p := by
  unfold to_resource_size
  omega

/-- The success path of `iommu_allocate_sgtable`, read off the code. -/
theorem iommu_allocate_sgtable_some (kz : Bool) (root : root_resource) (hok : root_ok root = true)
    (sgtable : List scatterlist) (obj : iommu_obj) (root' : root_resource) (ws : List reg_write)
    (h : iommu_allocate_sgtable kz root sgtable = some (some obj, root', ws)) :
    kz = true ∧ sg_total_len sgtable 0 ≠ 0 ∧ sg_total_len sgtable 0 + 4095 ≤ INT_MAX ∧
      obj.size = sg_pages sgtable ∧ 1 ≤ obj.size ∧ obj.size ≤ 4096 ∧
      allocate_resource root obj.size.toNat = some (obj.base, root') ∧
      obj.offset = (obj.base.start : Int) ∧
      sg_loop sgtable (0x9000 + obj.offset * 4) = some ws := by
  obtain ⟨hs, he, hch⟩ := (root_ok_iff root).1 hok
  have hb := sg_total_len_bounds sgtable 0 (by omega)
  unfold iommu_allocate_sgtable at h
  simp only at h
  split at h
  · simp at h
  · rename_i hne
    split at h
    · simp at h
    · rename_i hov
      split at h
      · simp at h
      · rename_i hkz
        split at h
        · simp at h
        · rename_i base r' halloc
          have hsp := allocate_resource_spec root hok _ base r' halloc
          have hc := tdiv_4096_cases (sg_total_len sgtable 0 + 4095)
          have hpos : 1 ≤ Int.tdiv (sg_total_len sgtable 0 + 4095) 4096 := by
            by_contra hneg
            have hrs : to_resource_size (Int.tdiv (sg_total_len sgtable 0 + 4095) 4096) = 0 ∨
                4097 ≤ to_resource_size (Int.tdiv (sg_total_len sgtable 0 + 4095) 4096) := by
              by_cases hz : Int.tdiv (sg_total_len sgtable 0 + 4095) 4096 = 0
              · left; rw [hz]; rfl
              · right
                exact to_resource_size_neg _ (by omega) (by omega)
            omega
          rw [to_resource_size_of_nonneg _ (by omega) (by omega)] at halloc hsp
          have hoff : to_int ((base.start + 18446744073709551616 - root.start) %
              18446744073709551616) = (base.start : Int) := by
            rw [hs, Nat.sub_zero, Nat.add_mod_right, Nat.mod_eq_of_lt (by omega),
      to_int_of_lt _ (by omega)]
          rw [hoff] at h
          split at h
          · simp at h
          · cases hl : sg_loop sgtable (0x9000 + (base.start : Int) * 4) with
            | none => simp [hl] at h
            | some ws' =>
              simp only [hl, Option.some.injEq, Prod.mk.injEq] at h
              obtain ⟨h1, h2, h3⟩ := h
              subst h1 h2 h3
              dsimp only
              refine ⟨by simpa using hkz, hne, by omega, rfl, hpos, by omega, halloc, rfl, hl⟩

/-- The `int total_len` of the code is the byte total as long as that is below
`2^31`. -/
theorem sg_total_len_eq (sgtable : List scatterlist) (t : Nat)
    (h : t + sg_byte_total sgtable < 2147483648) :
    sg_total_len sgtable (t : Int) = ((t + sg_byte_total sgtable : Nat) : Int) := by
  induction sgtable generalizing t with
  | nil => simp [sg_total_len, sg_byte_total]
  | cons sg rest ih =>
    have hsum : sg_byte_total (sg :: rest) = sg.dma_len + sg_byte_total rest := by
      simp [sg_byte_total]
    rw [hsum] at h ⊢
    have hu : to_uint (t : Int) = t := by
      rw [to_uint_of_nonneg _ (by omega) (by omega)]
      exact Int.toNat_ofNat _
    simp only [sg_total_len, hu]
    rw [Nat.mod_eq_of_lt (by omega), to_int_of_lt _ (by omega), ih (t + sg.dma_len) (by omega)]
    congr 1
    omega

/-- The page count of `iommu_allocate_sgtable` is `ceil (total / 4096)` for a
byte total of at most `2^31 - 4096`. -/
theorem sg_pages_eq (sgtable : List scatterlist) (h : sg_byte_total sgtable ≤ 2147479552) :
    sg_pages sgtable = (((sg_byte_total sgtable + 4095) / 4096 : Nat) : Int) := by
  have h1 := sg_total_len_eq sgtable 0 (by omega)
  simp only [Nat.cast_zero, Nat.zero_add] at h1
  unfold sg_pages
  rw [h1, Int.tdiv_eq_ediv (by omega) (by omega)]
  omega

/-- With the bound on the iterations used by `sg_loop`, the inner loop has a
result whenever no `int` overflows. -/
theorem sg_segment_loop_defined (len : Nat) (fuel : Nat) (dma_length : Int) (dma_addr : Nat)
    (pos : Int) (h0 : 0 ≤ dma_length)
    (hfuel : (len - dma_length.toNat + 4095) / 4096 < fuel)
    (hlen : dma_length + 4096 * (((len - dma_length.toNat + 4095) / 4096 : Nat) : Int) ≤ INT_MAX)
    (hpos : pos + 4 * (((len - dma_length.toNat + 4095) / 4096 : Nat) : Int) ≤ INT_MAX) :
    ∃ r, sg_segment_loop len fuel dma_length dma_addr pos = some r := by
  induction fuel generalizing dma_length dma_addr pos with
  | zero => omega
  | succ fuel ih =>
    unfold INT_MAX at hlen hpos
    have hu : to_uint dma_length = dma_length.toNat := to_uint_of_nonneg _ h0 (by omega)
    simp only [sg_segment_loop, hu]
    split
    · rename_i hlt
      have hn : (len - dma_length.toNat + 4095) / 4096 =
          (len - (dma_length + 0x1000).toNat + 4095) / 4096 + 1 := by omega
      rw [hn] at hfuel hlen hpos
      push_cast at hlen hpos
      rw [if_neg (by unfold INT_MAX; omega)]
      obtain ⟨r, hr⟩ := ih (dma_length + 0x1000) (dma_addr + 1) (pos + 4) (by omega) (by omega)
        (by unfold INT_MAX; omega) (by unfold INT_MAX; omega)
      rw [hr]
      exact ⟨_, rfl⟩
    · exact ⟨_, rfl⟩

theorem sg_loop_defined (sgtable : List scatterlist) (pos : Int)
    (hlen : ∀ sg ∈ sgtable, sg.dma_len ≤ 2147479552)
    (hpos : pos + 4 * (((sgtable.flatMap segment_values).length : Nat) : Int) ≤ INT_MAX) :
    ∃ ws, sg_loop sgtable pos = some ws := by
  induction sgtable generalizing pos with
  | nil => exact ⟨[], rfl⟩
  | cons sg rest ih =>
    have hsg := hlen sg (List.mem_cons_self _ _)
    have hcount : ((sg :: rest).flatMap segment_values).length =
        (sg.dma_len + 4095) / 4096 + (rest.flatMap segment_values).length := by
      simp [segment_values]
    rw [hcount] at hpos
    push_cast at hpos
    unfold INT_MAX at hpos
    obtain ⟨⟨pos', ws1⟩, h1⟩ := sg_segment_loop_defined sg.dma_len (sg.dma_len / 4096 + 2) 0
      (sg.dma_address >>> 12) pos (le_refl _) (by simp only [Int.toNat_zero]; omega)
      (by unfold INT_MAX; simp only [Int.toNat_zero]; omega)
      (by unfold INT_MAX; simp only [Int.toNat_zero]; omega)
    obtain ⟨_, e2, _⟩ := sg_segment_loop_eq sg.dma_len _ 0 (sg.dma_address >>> 12) pos
      (le_refl _) (by unfold INT_MAX; omega) (by unfold INT_MAX; omega) pos' ws1 h1
    simp only [Int.toNat_zero, Nat.sub_zero] at e2
    obtain ⟨ws2, h2⟩ := ih pos' (fun sg' hsg' => hlen sg' (List.mem_cons_of_mem _ hsg'))
      (by unfold INT_MAX; rw [e2]; omega)
    refine ⟨ws1 ++ ws2, ?_⟩
    simp only [sg_loop, h1, h2]

/-- The function `iommu_allocate_sgtable` has a result for every table whose
segments are at most `2^31 - 4096` bytes long, cover at most `2^20` strides and
whose byte total does not overflow. -/
theorem iommu_allocate_sgtable_defined (kz : Bool) (root : root_resource)
    (hok : root_ok root = true) (sgtable : List scatterlist)
    (hlen : ∀ sg ∈ sgtable, sg.dma_len ≤ 2147479552)
    (hcount : (sgtable.flatMap segment_values).length ≤ 1048576)
    (hsum : sg_total_len sgtable 0 + 4095 ≤ INT_MAX) :
    ∃ r, iommu_allocate_sgtable kz root sgtable = some r := by
  obtain ⟨hs, he, hch⟩ := (root_ok_iff root).1 hok
  have hb := sg_total_len_bounds sgtable 0 (by omega)
  unfold iommu_allocate_sgtable
  simp only
  split
  · exact ⟨_, rfl⟩
  · rw [if_neg (by omega)]
    split
    · exact ⟨_, rfl⟩
    · split
      · exact ⟨_, rfl⟩
      · rename_i base r' halloc
        have hsp := allocate_resource_spec root hok _ base r' halloc
        have hoff : to_int ((base.start + 18446744073709551616 - root.start) %
            18446744073709551616) = (base.start : Int) := by
          rw [hs, Nat.sub_zero, Nat.add_mod_right, Nat.mod_eq_of_lt (by omega),
            to_int_of_lt _ (by omega)]
        rw [hoff]
        rw [if_neg (by unfold INT_MAX; omega)]
        obtain ⟨ws, hws⟩ := sg_loop_defined sgtable (0x9000 + (base.start : Int) * 4) hlen
          (by unfold INT_MAX; omega)
        rw [hws]
        exact ⟨_, rfl⟩

theorem range_one : List.range 1 = [0] := rfl

theorem range_two : List.range 2 = [0, 1] := rfl

theorem range_three : List.range 3 = [0, 1, 2] := rfl

/-! ## The invariant of the driver state -/

theorem children_ok_pairwise (hi : Nat) (l : List resource) (lo : Nat)
    (h : children_ok hi lo l = true) : l.Pairwise (fun a b => a.end_ < b.start) := by
  induction l generalizing lo with
  | nil => exact List.Pairwise.nil
  | cons c rest ih =>
    rw [children_ok_cons] at h
    refine List.Pairwise.cons ?_ (ih _ h.2.2.2)
    intro b hb
    have := children_ok_mem hi rest _ h.2.2.2 b hb
    omega

theorem children_ok_nodup (hi : Nat) (l : List resource) (lo : Nat)
    (h : children_ok hi lo l = true) : l.Nodup := by
  have hp := children_ok_pairwise hi l lo h
  have hb := children_ok_mem hi l lo h
  refine List.Pairwise.imp_of_mem ?_ hp
  intro a b ha _ hab e
  subst e
  have := hb a ha
  omega

theorem children_ok_disjoint (hi : Nat) (l : List resource) (lo : Nat)
    (h : children_ok hi lo l = true) (a b : resource) (ha : a ∈ l) (hb : b ∈ l) (hne : a ≠ b) :
    a.end_ < b.start ∨ b.end_ < a.start := by
  have hp := children_ok_pairwise hi l lo h
  have hsym : Symmetric (fun a b : resource => a.end_ < b.start ∨ b.end_ < a.start) := by
    intro x y hxy
    exact hxy.symm
  exact (hp.imp (fun {x y} hxy => Or.inl hxy)).forall hsym ha hb hne

theorem children_ok_erase (hi : Nat) (l : List resource) (lo : Nat)
    (h : children_ok hi lo l = true) (c : resource) :
    children_ok hi lo (l.erase c) = true := by
  induction l generalizing lo with
  | nil => simpa using h
  | cons d rest ih =>
    rw [children_ok_cons] at h
    by_cases hdc : d = c
    · subst hdc
      rw [List.erase_cons_head]
      exact children_ok_weaken hi rest _ lo (by omega) h.2.2.2
    · rw [List.erase_cons_tail (by simpa using hdc), children_ok_cons]
      exact ⟨h.1, h.2.1, h.2.2.1, ih _ h.2.2.2⟩

theorem obj_disjoint_symm : Symmetric obj_disjoint := by
  intro a b h
  exact h.symm

/-- A `NULL` result of `iommu_allocate` leaves the root untouched and issues no write. -/
theorem iommu_allocate_none (kz : Bool) (root : root_resource) (size phys_addr : Nat)
    (root' : root_resource) (ws : List reg_write)
    (h : iommu_allocate kz root size phys_addr = (none, root', ws)) : root' = root ∧ ws = [] := by
  unfold iommu_allocate at h
  simp only at h
  split at h
  · simp only [Prod.mk.injEq, true_and] at h
    exact ⟨h.1.symm, h.2.symm⟩
  · split at h
    · simp only [Prod.mk.injEq, true_and] at h
      exact ⟨h.1.symm, h.2.symm⟩
    · split at h
      · simp only [Prod.mk.injEq, true_and] at h
        exact ⟨h.1.symm, h.2.symm⟩
      · simp at h

/-- A `NULL` result of `iommu_allocate_sgtable` leaves the root untouched and issues no write. -/
theorem iommu_allocate_sgtable_none (kz : Bool) (root : root_resource)
    (sgtable : List scatterlist) (root' : root_resource) (ws : List reg_write)
    (h : iommu_allocate_sgtable kz root sgtable = some (none, root', ws)) :
    root' = root ∧ ws = [] := by
  unfold iommu_allocate_sgtable at h
  simp only at h
  split at h
  · simp only [Option.some.injEq, Prod.mk.injEq, true_and] at h
    exact ⟨h.1.symm, h.2.symm⟩
  · split at h
    · simp at h
    · split at h
      · simp only [Option.some.injEq, Prod.mk.injEq, true_and] at h
        exact ⟨h.1.symm, h.2.symm⟩
      · split at h
        · simp only [Option.some.injEq, Prod.mk.injEq, true_and] at h
          exact ⟨h.1.symm, h.2.symm⟩
        · split at h
          · simp at h
          · split at h
            · simp at h
            · simp at h

/-- The invariant survives a granted allocation. -/
theorem Inv_allocate (s : State) (hinv : Inv s) (obj : iommu_obj) (root' : root_resource)
    (halloc : allocate_resource s.root obj.size.toNat = some (obj.base, root'))
    (hsize : 1 ≤ obj.size) (hoff : obj.offset = (obj.base.start : Int)) :
    Inv { root := root', live := obj :: s.live } := by
  obtain ⟨hok, hlive, hchild, hpw⟩ := hinv
  obtain ⟨h1, h2, h3, h4, h5, h6, h7⟩ := allocate_resource_spec s.root hok _ _ _ halloc
  have hnew : obj_ok root' obj := by
    refine ⟨(h5 obj.base).2 (Or.inl rfl), hoff, ?_, hsize⟩
    rw [hoff]
    omega
  refine ⟨h4, ?_, ?_, ?_⟩
  · intro o ho
    rcases List.mem_cons.1 ho with rfl | ho
    · exact hnew
    · obtain ⟨a, b, c, d⟩ := hlive o ho
      exact ⟨(h5 o.base).2 (Or.inr a), b, c, d⟩
  · intro c hc
    rcases (h5 c).1 hc with rfl | hc
    · exact ⟨obj, List.mem_cons_self _ _, rfl⟩
    · obtain ⟨o, ho, e⟩ := hchild c hc
      exact ⟨o, List.mem_cons_of_mem _ ho, e⟩
  · refine List.Pairwise.cons ?_ hpw
    intro o ho
    obtain ⟨a, b, c, d⟩ := hlive o ho
    have := h6 o.base a
    unfold obj_disjoint
    omega

/-- The invariant survives the free of a live object. -/
theorem Inv_free (s : State) (hinv : Inv s) (obj : iommu_obj) (hobj : obj ∈ s.live) :
    Inv { root := release_resource s.root obj.base, live := s.live.erase obj } := by
  obtain ⟨hok, hlive, hchild, hpw⟩ := hinv
  obtain ⟨hs, he, hch⟩ := (root_ok_iff s.root).1 hok
  have hnd := children_ok_nodup _ _ _ hch
  have hne_base : ∀ o ∈ s.live, o ≠ obj → o.base ≠ obj.base := by
    intro o ho hne e
    have hd := hpw.forall obj_disjoint_symm ho hobj hne
    obtain ⟨_, b1, c1, d1⟩ := hlive o ho
    obtain ⟨_, b2, c2, d2⟩ := hlive obj hobj
    unfold obj_disjoint at hd
    rw [e] at b1 c1
    omega
  have hlnd : s.live.Nodup := by
    refine List.Pairwise.imp_of_mem ?_ hpw
    intro a b ha _ hab e
    subst e
    obtain ⟨_, _, _, d1⟩ := hlive a ha
    unfold obj_disjoint at hab
    omega
  refine ⟨?_, ?_, ?_, hpw.sublist (List.erase_sublist _ _)⟩
  · rw [root_ok_iff]
    exact ⟨hs, he, children_ok_erase _ _ _ hch _⟩
  · intro o ho
    obtain ⟨hne, ho'⟩ := (hlnd.mem_erase_iff).1 ho
    obtain ⟨a, b, c, d⟩ := hlive o ho'
    refine ⟨?_, b, c, d⟩
    show o.base ∈ s.root.child.erase obj.base
    exact (List.mem_erase_of_ne (hne_base o ho' hne)).2 a
  · intro c hc
    have hc' : c ∈ s.root.child.erase obj.base := hc
    obtain ⟨hne, hc''⟩ := (hnd.mem_erase_iff).1 hc'
    obtain ⟨o, ho, e⟩ := hchild c hc''
    refine ⟨o, ?_, e⟩
    refine (List.mem_erase_of_ne ?_).2 ho
    intro e2
    subst e2
    exact hne e.symm

theorem Inv_initial : Inv initial_state := by
  refine ⟨by decide, ?_, ?_, List.Pairwise.nil⟩
  · intro o ho
    simp [initial_state] at ho
  · intro c hc
    simp [initial_state] at hc

theorem Inv_record_result (s : State) (hinv : Inv s)
    (r : Option iommu_obj × root_resource × List reg_write)
    (hnone : ∀ root' ws, r = (none, root', ws) → root' = s.root)
    (hsome : ∀ obj root' ws, r = (some obj, root', ws) →
      allocate_resource s.root obj.size.toNat = some (obj.base, root') ∧ 1 ≤ obj.size ∧
        obj.offset = (obj.base.start : Int)) :
    Inv (record_result s r).1 := by
  obtain ⟨o, root', ws⟩ := r
  cases o with
  | none =>
    have := hnone root' ws rfl
    subst this
    exact hinv
  | some obj =>
    obtain ⟨h1, h2, h3⟩ := hsome obj root' ws rfl
    exact Inv_allocate s hinv obj root' h1 h2 h3

theorem Inv_step (s : State) (hinv : Inv s) (op : Op) (s' : State) (ws : List reg_write)
    (h : step s op = some (s', ws)) : Inv s' := by
  cases op with
  | allocate kz size phys_addr =>
    have h' : record_result s (iommu_allocate kz s.root size phys_addr) = (s', ws) :=
      Option.some.inj h
    have := Inv_record_result s hinv (iommu_allocate kz s.root size phys_addr)
      (fun root' ws' e => (iommu_allocate_none _ _ _ _ _ _ e).1)
      (fun obj root' ws' e => by
        obtain ⟨_, _, h3, _, h5, h6, _⟩ := iommu_allocate_some _ _ hinv.1 _ _ _ _ _ e
        exact ⟨h5, h3, h6⟩)
    rw [h'] at this
    exact this
  | allocate_sgtable kz sgtable =>
    have h0 : (iommu_allocate_sgtable kz s.root sgtable).map (record_result s) = some (s', ws) := h
    cases hres : iommu_allocate_sgtable kz s.root sgtable with
    | none => rw [hres] at h0; simp at h0
    | some r =>
      rw [hres] at h0
      have h' : record_result s r = (s', ws) := Option.some.inj h0
      have := Inv_record_result s hinv r
        (fun root' ws' e => (iommu_allocate_sgtable_none kz s.root sgtable root' ws'
          (by rw [hres, e])).1)
        (fun obj root' ws' e => by
          obtain ⟨_, _, _, _, h5, _, h7, h8, _⟩ :=
            iommu_allocate_sgtable_some kz s.root hinv.1 sgtable obj root' ws' (by rw [hres, e])
          exact ⟨h7, h5, h8⟩)
      rw [h'] at this
      exact this
  | free obj =>
    have h0 : (if obj ∈ s.live then
        some (({ root := (iommu_free s.root (some obj)).1, live := s.live.erase obj } : State),
          (iommu_free s.root (some obj)).2)
      else none) = some (s', ws) := h
    split at h0
    · rename_i hmem
      simp only [Option.some.injEq, Prod.mk.injEq] at h0
      obtain ⟨rfl, rfl⟩ := h0
      exact Inv_free s hinv obj hmem
    · simp at h0

/-- Every state reached by a run from a state with the invariant has it. -/
theorem Inv_run (ops : List Op) (s : State) (hinv : Inv s) (s' : State) (ws : List reg_write)
    (h : run s ops = some (s', ws)) : Inv s' := by
  induction ops generalizing s ws with
  | nil =>
    simp only [run, Option.some.injEq, Prod.mk.injEq] at h
    rw [← h.1]
    exact hinv
  | cons op ops ih =>
    simp only [run] at h
    cases hst : step s op with
    | none => simp [hst] at h
    | some p =>
      obtain ⟨s1, ws1⟩ := p
      simp only [hst] at h
      cases hr : run s1 ops with
      | none => simp [hr] at h
      | some q =>
        obtain ⟨s2, ws2⟩ := q
        simp only [hr, Option.some.injEq, Prod.mk.injEq] at h
        obtain ⟨rfl, _⟩ := h
        exact ih s1 (Inv_step s hinv op s1 ws1 hst) ws2 hr

/-! ## `iommu_free` and occupancy -/

/-- The writes of the loop of `iommu_free`, in closed form. -/
theorem iommu_free_loop_eq (n : Nat) (i : Int) :
    iommu_free_loop (i + n) n i =
      (List.range n).map (fun k => ⟨0, 0x9000 + (i + (k : Nat)) * 4⟩) := by
  induction n generalizing i with
  | zero => simp [iommu_free_loop]
  | succ n ih =>
    simp only [iommu_free_loop]
    rw [if_pos (by omega)]
    have h1 : i + ((n + 1 : Nat) : Int) = (i + 1) + (n : Int) := by push_cast; ring
    rw [h1, ih (i + 1), List.range_succ_eq_map, List.map_cons, List.map_map]
    congr 1
    · simp
    · apply List.map_congr_left
      intro k _
      simp only [Function.comp, reg_write.mk.injEq, true_and]
      push_cast; ring

theorem occupied_iff (root : root_resource) (p : Nat) :
    occupied root p = true ↔ ∃ c ∈ root.child, c.start ≤ p ∧ p ≤ c.end_ := by
  simp [occupied]

theorem occupied_eq_false_iff (root : root_resource) (p : Nat) :
    occupied root p = false ↔ ∀ c ∈ root.child, p < c.start ∨ c.end_ < p := by
  rw [← Bool.not_eq_true, occupied_iff]
  constructor
  · intro h c hc
    by_contra hn
    exact h ⟨c, hc, by omega⟩
  · rintro h ⟨c, hc, h1⟩
    have := h c hc
    omega

/-- Occupancy after `release_resource` of a child: its pages are free, every
other page is as before. -/
theorem occupied_release (root : root_resource) (hok : root_ok root = true) (base : resource)
    (hbase : base ∈ root.child) (p : Nat) :
    occupied (release_resource root base) p =
      if base.start ≤ p ∧ p ≤ base.end_ then false else occupied root p := by
  obtain ⟨_, _, hch⟩ := (root_ok_iff root).1 hok
  have hnd := children_ok_nodup _ _ _ hch
  have hmem : ∀ c, c ∈ (release_resource root base).child ↔ c ≠ base ∧ c ∈ root.child :=
    fun c => hnd.mem_erase_iff
  split
  · rename_i hp
    rw [occupied_eq_false_iff]
    intro c hc
    obtain ⟨hne, hc'⟩ := (hmem c).1 hc
    have := children_ok_disjoint _ _ _ hch c base hc' hbase hne
    omega
  · rename_i hp
    rw [Bool.eq_iff_iff, occupied_iff, occupied_iff]
    constructor
    · rintro ⟨c, hc, h1⟩
      exact ⟨c, ((hmem c).1 hc).2, h1⟩
    · rintro ⟨c, hc, h1⟩
      refine ⟨c, (hmem c).2 ⟨?_, hc⟩, h1⟩
      intro e
      subst e
      exact hp h1

/-! ## Free runs and exhaustion -/

/-- A granted range was a free run. -/
theorem allocate_resource_free_run (root : root_resource) (hok : root_ok root = true) (size : Nat)
    (new : resource) (root' : root_resource)
    (h : allocate_resource root size = some (new, root')) : free_run root new.start size := by
  obtain ⟨h1, h2, h3, _, _, h6, _⟩ := allocate_resource_spec root hok size new root' h
  obtain ⟨hs, he, _⟩ := (root_ok_iff root).1 hok
  refine ⟨by omega, by omega, ?_⟩
  intro p hp1 hp2
  rw [occupied_eq_false_iff]
  intro c hc
  have := h6 c hc
  omega

/-- The allocator succeeds whenever a free run of the requested size exists. -/
theorem allocate_resource_of_free_run (root : root_resource) (hok : root_ok root = true)
    (size : Nat) (hsize : 0 < size) (hrun : has_free_run root size) :
    ∃ new root', allocate_resource root size = some (new, root') := by
  obtain ⟨s, hs1, hs2, hs3⟩ := hrun
  obtain ⟨_, _, hch⟩ := (root_ok_iff root).1 hok
  have hfree : ∀ c ∈ root.child, c.end_ < s ∨ s + size ≤ c.start := by
    intro c hc
    have hb := children_ok_mem _ _ _ hch c hc
    by_contra hn
    have hocc := (occupied_eq_false_iff root (max c.start s)).1
      (hs3 (max c.start s) (by omega) (by omega)) c hc
    omega
  obtain ⟨new, l', hf, _⟩ :=
    find_resource_complete root.end_ size root.child root.start s hs1 hs2 hfree
  refine ⟨new, { root with child := l' }, ?_⟩
  unfold allocate_resource
  rw [if_neg (by omega), hf]

/-- The `int pages` of `iommu_allocate` is `ceil (size / 4096)` as long as that
is below `2^31`. -/
theorem GET_IOMMU_PAGES_eq (size : Nat) (h : (size + 4095) / 4096 < 2147483648) :
    to_int (GET_IOMMU_PAGES size) = (((size + 4095) / 4096 : Nat) : Int) := by
  unfold GET_IOMMU_PAGES
  rw [Nat.mod_eq_of_lt (by omega), to_int_of_lt _ (by omega)]

theorem iommu_allocate_of_alloc (root : root_resource) (hok : root_ok root = true)
    (size phys_addr : Nat) (base : resource) (root' : root_resource)
    (h1 : 1 ≤ to_int (GET_IOMMU_PAGES size)) (h2 : to_int (GET_IOMMU_PAGES size) ≤ 4095)
    (halloc : allocate_resource root (to_int (GET_IOMMU_PAGES size)).toNat = some (base, root')) :
    ∃ ws, iommu_allocate true root size phys_addr =
      (some ⟨base, to_int (GET_IOMMU_PAGES size), (base.start : Int)⟩, root', ws) := by
  obtain ⟨hs, _, _⟩ := (root_ok_iff root).1 hok
  have hsp := allocate_resource_spec root hok _ base root' halloc
  have hoff : to_int ((base.start + 18446744073709551616 - root.start) %
      18446744073709551616) = (base.start : Int) := by
    rw [hs, Nat.sub_zero, Nat.add_mod_right, Nat.mod_eq_of_lt (by omega),
      to_int_of_lt _ (by omega)]
  unfold iommu_allocate
  simp only
  rw [if_neg (by omega)]
  simp only [Bool.not_true, Bool.false_eq_true, if_false]
  rw [to_resource_size_of_nonneg _ (by omega) (by omega), halloc]
  simp only [hoff]
  exact ⟨_, rfl⟩

theorem sg_total_len_zero (sgtable : List scatterlist) (h : ∀ sg ∈ sgtable, sg.dma_len = 0) :
    sg_total_len sgtable 0 = 0 := by
  induction sgtable with
  | nil => rfl
  | cons sg rest ih =>
    have h0 : sg.dma_len = 0 := h sg (List.mem_cons_self _ _)
    have h1 : to_int ((to_uint 0 + 0) % 4294967296) = 0 := by decide
    simp only [sg_total_len, h0, h1]
    exact ih (fun sg' hsg' => h sg' (List.mem_cons_of_mem _ hsg'))

theorem has_free_run_zero (root : root_resource) (hok : root_ok root = true) :
    has_free_run root 0 := by
  obtain ⟨hs, he, _⟩ := (root_ok_iff root).1 hok
  exact ⟨0, by omega, by omega, fun p h1 h2 => by omega⟩

/-- A free run in a well-formed address space has at most 4096 indices. -/
theorem has_free_run_le (root : root_resource) (hok : root_ok root = true) (n : Nat)
    (h : has_free_run root n) : n ≤ 4096 := by
  obtain ⟨hs, he, _⟩ := (root_ok_iff root).1 hok
  obtain ⟨s, _, h2, _⟩ := h
  omega

/-- Without a free run of the size requested from the allocator `iommu_allocate`
returns `NULL` and changes nothing. -/
theorem iommu_allocate_exhausted (kz : Bool) (root : root_resource) (hok : root_ok root = true)
    (size phys_addr : Nat)
    (hrun : ¬ has_free_run root (to_resource_size (to_int (GET_IOMMU_PAGES size)))) :
    iommu_allocate kz root size phys_addr = (none, root, []) := by
  cases hres : iommu_allocate kz root size phys_addr with
  | mk o rest =>
    obtain ⟨root', ws⟩ := rest
    cases o with
    | none =>
      obtain ⟨rfl, rfl⟩ := iommu_allocate_none kz root size phys_addr root' ws hres
      rfl
    | some obj =>
      exfalso
      obtain ⟨_, h2, h3, h4, h5, _, _⟩ :=
        iommu_allocate_some kz root hok size phys_addr obj root' ws hres
      rw [← h2, to_resource_size_of_nonneg _ (by omega) (by omega)] at hrun
      exact hrun ⟨_, allocate_resource_free_run root hok _ _ _ h5⟩

/-- Without a free run of the size requested from the allocator
`iommu_allocate_sgtable` returns `NULL` and changes nothing. -/
theorem iommu_allocate_sgtable_exhausted (kz : Bool) (root : root_resource)
    (hok : root_ok root = true) (sgtable : List scatterlist)
    (hdef : sg_total_len sgtable 0 + 4095 ≤ INT_MAX)
    (hrun : ¬ has_free_run root (to_resource_size (sg_pages sgtable))) :
    iommu_allocate_sgtable kz root sgtable = some (none, root, []) := by
  unfold sg_pages at hrun
  unfold iommu_allocate_sgtable
  simp only
  split
  · rfl
  · rw [if_neg (by omega)]
    split
    · rfl
    · split
      · rfl
      · rename_i base r' halloc
        exfalso
        exact hrun ⟨_, allocate_resource_free_run root hok _ _ _ halloc⟩

/-- In bytes: for every `size` of at most `2^44` bytes whose page count
`ceil (size / 4096)` exceeds the largest free run, `iommu_allocate` returns
`NULL` and changes nothing. -/
theorem iommu_allocate_exhausted_bytes (kz : Bool) (root : root_resource)
    (hok : root_ok root = true) (size phys_addr : Nat) (hsize : size ≤ 17592186044416)
    (hrun : ¬ has_free_run root ((size + 4095) / 4096)) :
    iommu_allocate kz root size phys_addr = (none, root, []) := by
  have hg : GET_IOMMU_PAGES size = (size + 4095) / 4096 := by
    unfold GET_IOMMU_PAGES
    rw [Nat.mod_eq_of_lt (by omega)]
  by_cases hz : to_int (GET_IOMMU_PAGES size) = 0
  · unfold iommu_allocate
    simp only
    rw [if_pos (Or.inl hz)]
  · apply iommu_allocate_exhausted kz root hok
    intro hfree
    have hle := has_free_run_le root hok _ hfree
    have hb := to_int_bounds (GET_IOMMU_PAGES size)
    by_cases hneg : to_int (GET_IOMMU_PAGES size) < 0
    · have := to_resource_size_neg _ hneg hb.1
      omega
    · rw [to_resource_size_of_nonneg _ (by omega) (by omega)] at hfree hle
      have hlt : GET_IOMMU_PAGES size < 2147483648 := by
        by_contra hge
        rw [hg] at hge
        have h32 : (size + 4095) / 4096 ≤ 4294967296 := by omega
        have : to_int (GET_IOMMU_PAGES size) < 0 ∨ to_int (GET_IOMMU_PAGES size) = 0 := by
          rw [hg]
          unfold to_int
          split <;> omega
        omega
      rw [to_int_of_lt _ hlt, Int.toNat_ofNat, hg] at hfree
      exact hrun hfree

/-- In bytes: for every `size` of at most `2^44` bytes whose page count
`ceil (size / 4096)` is 0 or more than 4095, `iommu_allocate` returns `NULL` and
changes nothing.  (Above `2^44` bytes the `int pages` of the code no longer
holds the page count.) -/
theorem iommu_allocate_rejects_bytes (kz : Bool) (root : root_resource)
    (hok : root_ok root = true) (size phys_addr : Nat) (hsize : size ≤ 17592186044416)
    (hpages : (size + 4095) / 4096 = 0 ∨ 4095 < (size + 4095) / 4096) :
    iommu_allocate kz root size phys_addr = (none, root, []) := by
  have hg : GET_IOMMU_PAGES size = (size + 4095) / 4096 := by
    unfold GET_IOMMU_PAGES
    rw [Nat.mod_eq_of_lt (by omega)]
  cases hres : iommu_allocate kz root size phys_addr with
  | mk o rest =>
    obtain ⟨root', ws⟩ := rest
    cases o with
    | none =>
      obtain ⟨rfl, rfl⟩ := iommu_allocate_none kz root size phys_addr root' ws hres
      rfl
    | some obj =>
      exfalso
      obtain ⟨_, h2, h3, h4, _, _, _⟩ :=
        iommu_allocate_some kz root hok size phys_addr obj root' ws hres
      rw [h2, hg] at h3 h4
      unfold to_int at h3 h4
      split at h3 <;> omega

/-- In bytes: for every table of at most `2^31 - 4096` bytes in total whose
page count `ceil (total / 4096)` exceeds the largest free run,
`iommu_allocate_sgtable` returns `NULL` and changes nothing. -/
theorem iommu_allocate_sgtable_exhausted_bytes (kz : Bool) (root : root_resource)
    (hok : root_ok root = true) (sgtable : List scatterlist)
    (htotal : sg_byte_total sgtable ≤ 2147479552)
    (hrun : ¬ has_free_run root ((sg_byte_total sgtable + 4095) / 4096)) :
    iommu_allocate_sgtable kz root sgtable = some (none, root, []) := by
  have h1 := sg_total_len_eq sgtable 0 (by omega)
  simp only [Nat.cast_zero, Nat.zero_add] at h1
  have h2 := sg_pages_eq sgtable htotal
  apply iommu_allocate_sgtable_exhausted kz root hok sgtable
  · rw [h1]; unfold INT_MAX; omega
  · rw [h2, to_resource_size_of_nonneg _ (by omega) (by omega), Int.toNat_ofNat]
    exact hrun

/-! ## A map call followed by the free of its object -/

/-- Releasing the resource just granted gives back the address space as it
was before the allocation. -/
theorem release_after_allocate (root : root_resource) (hok : root_ok root = true) (size : Nat)
    (new : resource) (root' : root_resource)
    (h : allocate_resource root size = some (new, root')) :
    release_resource root' new = root := by
  obtain ⟨_, _, _, hok', _, _, h7⟩ := allocate_resource_spec root hok size new root' h
  obtain ⟨hs, he, _⟩ := (root_ok_iff root).1 hok
  obtain ⟨hs', he', _⟩ := (root_ok_iff root').1 hok'
  obtain ⟨s, e, c⟩ := root
  obtain ⟨s', e', c'⟩ := root'
  simp only at hs he hs' he' h7
  subst hs he hs' he'
  simp only [release_resource, h7]

/-- The contiguous path: `iommu_free` of the object returned by
`iommu_allocate` writes 0 to exactly the entries the map call wrote, in the
same order, and gives back the address space as it was before the map call. -/
theorem iommu_free_after_iommu_allocate (kz : Bool) (root : root_resource)
    (hok : root_ok root = true) (size phys_addr : Nat) (obj : iommu_obj)
    (root' : root_resource) (ws : List reg_write)
    (h : iommu_allocate kz root size phys_addr = (some obj, root', ws)) :
    (iommu_free root' (some obj)).2 = ws.map (fun w => ⟨0, w.offset⟩) ∧
      (iommu_free root' (some obj)).1 = root := by
  obtain ⟨_, _, h3, _, h5, _, h7⟩ := iommu_allocate_some kz root hok size phys_addr obj root' ws h
  have hn : obj.size = ((obj.size.toNat : Nat) : Int) := by omega
  constructor
  · show iommu_free_loop (obj.offset + obj.size) obj.size.toNat obj.offset = _
    have e1 := iommu_free_loop_eq obj.size.toNat obj.offset
    have e2 := iommu_allocate_loop_eq phys_addr obj.size.toNat obj.offset 0
    rw [← hn] at e1 e2
    rw [e1, h7]
    simp only [Nat.cast_zero] at e2
    rw [e2, List.map_map]
    rfl
  · exact release_after_allocate root hok _ _ _ h5

/-- The scatter-gather path: `iommu_free` of the object returned by
`iommu_allocate_sgtable` gives back the address space as it was before the map
call, and writes 0 to exactly the entries the map call wrote when the map call
wrote as many entries as it was granted pages. -/
theorem iommu_free_after_iommu_allocate_sgtable (kz : Bool) (root : root_resource)
    (hok : root_ok root = true) (sgtable : List scatterlist) (obj : iommu_obj)
    (root' : root_resource) (ws : List reg_write)
    (h : iommu_allocate_sgtable kz root sgtable = some (some obj, root', ws)) :
    (iommu_free root' (some obj)).1 = root ∧
      (ws.length = obj.size.toNat →
        (iommu_free root' (some obj)).2 = ws.map (fun w => ⟨0, w.offset⟩)) := by
  obtain ⟨_, _, _, _, h5, _, h7, h8, h9⟩ :=
    iommu_allocate_sgtable_some kz root hok sgtable obj root' ws h
  have hsp := allocate_resource_spec root hok _ _ _ h7
  have hn : obj.size = ((obj.size.toNat : Nat) : Int) := by omega
  refine ⟨release_after_allocate root hok _ _ _ h7, ?_⟩
  intro hlen
  show iommu_free_loop (obj.offset + obj.size) obj.size.toNat obj.offset = _
  have e1 := iommu_free_loop_eq obj.size.toNat obj.offset
  rw [← hn] at e1
  obtain ⟨_, ho⟩ := sg_loop_eq sgtable (0x9000 + obj.offset * 4)
    (by unfold INT_MAX; omega) ws h9
  have e3 : ws.map (fun w => (⟨0, w.offset⟩ : reg_write)) =
      (ws.map reg_write.offset).map (fun o => ⟨0, o⟩) := by
    rw [List.map_map]; rfl
  rw [e1, e3, ho, hlen, List.map_map]
  apply List.map_congr_left
  intro k _
  simp only [Function.comp, reg_write.mk.injEq, true_and]
  ring

/-! ## First fit, strides and the table set-up -/

/-- A free run keeps clear of every child. -/
theorem free_run_children (root : root_resource) (hok : root_ok root = true) (s n : Nat)
    (hn : 0 < n) (hrun : free_run root s n) :
    ∀ c ∈ root.child, c.end_ < s ∨ s + n ≤ c.start := by
  obtain ⟨_, _, hs3⟩ := hrun
  obtain ⟨_, _, hch⟩ := (root_ok_iff root).1 hok
  intro c hc
  have hb := children_ok_mem _ _ _ hch c hc
  by_contra hcon
  have hocc := (occupied_eq_false_iff root (max c.start s)).1
    (hs3 (max c.start s) (by omega) (by omega)) c hc
  omega

/-- The allocator is first-fit: the granted range starts no higher than any
free run of the requested size. -/
theorem allocate_resource_first_fit (root : root_resource) (hok : root_ok root = true)
    (size : Nat) (new : resource) (root' : root_resource)
    (h : allocate_resource root size = some (new, root')) (s : Nat)
    (hrun : free_run root s size) : new.start ≤ s := by
  obtain ⟨hpos, _⟩ := allocate_resource_spec root hok size new root' h
  have hfree := free_run_children root hok s size hpos hrun
  obtain ⟨n, l', hf, hle⟩ :=
    find_resource_complete root.end_ size root.child root.start s hrun.1 hrun.2.1 hfree
  unfold allocate_resource at h
  rw [if_neg (by omega), hf] at h
  simp only [Option.some.injEq, Prod.mk.injEq] at h
  rw [← h.1]
  exact hle

/-- The number of values the segments contribute is the number of strides. -/
theorem flatMap_segment_values_length (sgtable : List scatterlist) :
    (sgtable.flatMap segment_values).length = sg_strides sgtable := by
  induction sgtable with
  | nil => rfl
  | cons sg rest ih =>
    rw [List.flatMap_cons, List.length_append, ih]
    simp only [segment_values, List.length_map, List.length_range, sg_strides, List.map_cons,
      List.sum_cons]

/-- The success path of `iommu_allocate_sgtable`: when `kzalloc` succeeds, the
byte total is not 0 as an `int`, the allocator grants the request and no `int`
overflows in the write loops, the call returns the object of the granted
resource. -/
theorem iommu_allocate_sgtable_of_alloc (root : root_resource) (hok : root_ok root = true)
    (sgtable : List scatterlist) (base : resource) (root' : root_resource)
    (hne : sg_total_len sgtable 0 ≠ 0) (hsum : sg_total_len sgtable 0 + 4095 ≤ INT_MAX)
    (hpos : 1 ≤ sg_pages sgtable)
    (halloc : allocate_resource root (sg_pages sgtable).toNat = some (base, root'))
    (hlen : ∀ sg ∈ sgtable, sg.dma_len ≤ 2147479552)
    (hcount : sg_strides sgtable ≤ 536000000) :
    ∃ ws, iommu_allocate_sgtable true root sgtable =
      some (some ⟨base, sg_pages sgtable, (base.start : Int)⟩, root', ws) := by
  obtain ⟨hs, _, _⟩ := (root_ok_iff root).1 hok
  have hsp := allocate_resource_spec root hok _ base root' halloc
  have hb := sg_total_len_bounds sgtable 0 (by omega)
  have hc := tdiv_4096_cases (sg_total_len sgtable 0 + 4095)
  have hoff : to_int ((base.start + 18446744073709551616 - root.start) %
      18446744073709551616) = (base.start : Int) := by
    rw [hs, Nat.sub_zero, Nat.add_mod_right, Nat.mod_eq_of_lt (by omega),
      to_int_of_lt _ (by omega)]
  obtain ⟨ws, hws⟩ := sg_loop_defined sgtable (0x9000 + (base.start : Int) * 4) hlen
    (by rw [flatMap_segment_values_length]; unfold INT_MAX; omega)
  refine ⟨ws, ?_⟩
  unfold sg_pages at hpos halloc ⊢
  unfold INT_MAX at hsum
  unfold iommu_allocate_sgtable
  simp only
  rw [if_neg hne, if_neg (by unfold INT_MAX; omega)]
  simp only [Bool.not_true, Bool.false_eq_true, if_false]
  rw [to_resource_size_of_nonneg _ (by omega) (by omega), halloc]
  simp only [hoff]
  rw [if_neg (by unfold INT_MAX; omega), hws]

/-- The writes of the loop of `bcwc_buffer_init`, in closed form. -/
theorem bcwc_buffer_init_loop_eq (n : Nat) (i : Nat) (h : i + n ≤ 4096) :
    bcwc_buffer_init_loop n (i : Int) =
      (List.range n).map (fun k => ⟨0, 0x9000 + 4 * (((i + k : Nat)) : Int)⟩) := by
  induction n generalizing i with
  | zero => simp [bcwc_buffer_init_loop]
  | succ n ih =>
    simp only [bcwc_buffer_init_loop]
    rw [if_pos (by omega)]
    have h1 : (i : Int) + 1 = ((i + 1 : Nat) : Int) := by push_cast; ring
    rw [h1, ih (i + 1) (by omega), List.range_succ_eq_map, List.map_cons, List.map_map]
    congr 1
    · simp only [Nat.add_zero, reg_write.mk.injEq, true_and]
      ring
    · apply List.map_congr_left
      intro k _
      simp only [Function.comp, reg_write.mk.injEq, true_and, Nat.succ_eq_add_one]
      congr 2
      omega

/-! ## Bounds of the returned object and of the writes -/

/-- The object of a successful `iommu_allocate` has between 1 and 4095 pages
and ends inside the range. -/
theorem iommu_allocate_object_bounds (kz : Bool) (root : root_resource)
    (hok : root_ok root = true) (size phys_addr : Nat) (obj : iommu_obj)
    (root' : root_resource) (ws : List reg_write)
    (h : iommu_allocate kz root size phys_addr = (some obj, root', ws)) :
    1 ≤ obj.size ∧ obj.size ≤ 4095 ∧ 0 ≤ obj.offset ∧ obj.offset + obj.size - 1 ≤ 4095 := by
  obtain ⟨_, _, h3, h4, h5, h6, _⟩ := iommu_allocate_some kz root hok size phys_addr obj root' ws h
  have hsp := allocate_resource_spec root hok _ _ _ h5
  omega

/-- The object of a successful `iommu_allocate_sgtable` has between 1 and 4096
pages and ends inside the range. -/
theorem iommu_allocate_sgtable_object_bounds (kz : Bool) (root : root_resource)
    (hok : root_ok root = true) (sgtable : List scatterlist) (obj : iommu_obj)
    (root' : root_resource) (ws : List reg_write)
    (h : iommu_allocate_sgtable kz root sgtable = some (some obj, root', ws)) :
    1 ≤ obj.size ∧ obj.size ≤ 4096 ∧ 0 ≤ obj.offset ∧ obj.offset + obj.size - 1 ≤ 4095 := by
  obtain ⟨_, _, _, _, h5, h6, h7, h8, _⟩ :=
    iommu_allocate_sgtable_some kz root hok sgtable obj root' ws h
  have hsp := allocate_resource_spec root hok _ _ _ h7
  omega

/-- Every write of `bcwc_buffer_init` targets an entry of the table. -/
theorem bcwc_buffer_init_in_table (kz : Bool) : ∀ w ∈ (bcwc_buffer_init kz).2, in_table w := by
  intro w hw
  have h := bcwc_buffer_init_loop_eq 4096 0 (by omega)
  simp only [Nat.cast_zero, Nat.zero_add] at h
  have hw' : w ∈ bcwc_buffer_init_loop 4096 0 := hw
  rw [h, List.mem_map] at hw'
  obtain ⟨k, hk, rfl⟩ := hw'
  rw [List.mem_range] at hk
  exact ⟨k, by omega, by omega, rfl⟩

/-- Every write of a successful `iommu_allocate` targets an entry of the
table, inside the range of the returned object. -/
theorem iommu_allocate_in_table (kz : Bool) (root : root_resource) (hok : root_ok root = true)
    (size phys_addr : Nat) (obj : iommu_obj) (root' : root_resource) (ws : List reg_write)
    (h : iommu_allocate kz root size phys_addr = (some obj, root', ws)) :
    ∀ w ∈ ws, in_table w ∧ ∃ i, in_range obj i ∧ w.offset = 0x9000 + 4 * i := by
  obtain ⟨h1, h2, h3, h4⟩ := iommu_allocate_object_bounds kz root hok size phys_addr obj root' ws h
  obtain ⟨_, _, _, _, _, _, h7⟩ := iommu_allocate_some kz root hok size phys_addr obj root' ws h
  have hn : obj.size = ((obj.size.toNat : Nat) : Int) := by omega
  have e := iommu_allocate_loop_eq phys_addr obj.size.toNat obj.offset 0
  rw [← hn] at e
  simp only [Nat.cast_zero] at e
  intro w hw
  rw [h7, e, List.mem_map] at hw
  obtain ⟨k, hk, rfl⟩ := hw
  rw [List.mem_range] at hk
  refine ⟨⟨obj.offset + k, by omega, by omega, ?_⟩, obj.offset + k, ⟨by omega, by omega⟩, ?_⟩ <;>
    simp only <;> ring

/-- Every write of `iommu_free` of an object that agrees with a well-formed
address space targets an entry of the table. -/
theorem iommu_free_in_table (root : root_resource) (hok : root_ok root = true) (obj : iommu_obj)
    (hobj : obj_ok root obj) : ∀ w ∈ (iommu_free root (some obj)).2, in_table w := by
  obtain ⟨hb, hoff, hend, hsz⟩ := hobj
  obtain ⟨_, _, hch⟩ := (root_ok_iff root).1 hok
  have hbb := children_ok_mem _ _ _ hch obj.base hb
  have hn : obj.size = ((obj.size.toNat : Nat) : Int) := by omega
  have e := iommu_free_loop_eq obj.size.toNat obj.offset
  rw [← hn] at e
  intro w hw
  have hw' : w ∈ iommu_free_loop (obj.offset + obj.size) obj.size.toNat obj.offset := hw
  rw [e, List.mem_map] at hw'
  obtain ⟨k, hk, rfl⟩ := hw'
  rw [List.mem_range] at hk
  refine ⟨obj.offset + k, by omega, by omega, ?_⟩
  simp only
  ring

/-- The writes of a successful `iommu_allocate_sgtable` target entries of the
table, inside the range of the returned object, when there are no more of them
than pages granted. -/
theorem iommu_allocate_sgtable_in_table (kz : Bool) (root : root_resource)
    (hok : root_ok root = true) (sgtable : List scatterlist) (obj : iommu_obj)
    (root' : root_resource) (ws : List reg_write)
    (h : iommu_allocate_sgtable kz root sgtable = some (some obj, root', ws))
    (hlen : (ws.length : Int) ≤ obj.size) :
    ∀ w ∈ ws, in_table w ∧ ∃ i, in_range obj i ∧ w.offset = 0x9000 + 4 * i := by
  obtain ⟨h1, h2, h3, h4⟩ :=
    iommu_allocate_sgtable_object_bounds kz root hok sgtable obj root' ws h
  obtain ⟨_, _, _, _, _, _, _, _, h9⟩ :=
    iommu_allocate_sgtable_some kz root hok sgtable obj root' ws h
  obtain ⟨_, ho⟩ := sg_loop_eq sgtable (0x9000 + obj.offset * 4)
    (by unfold INT_MAX; omega) ws h9
  intro w hw
  have hmem : w.offset ∈ ws.map reg_write.offset := List.mem_map_of_mem _ hw
  rw [ho, List.mem_map] at hmem
  obtain ⟨k, hk, hkw⟩ := hmem
  rw [List.mem_range] at hk
  refine ⟨⟨obj.offset + k, by omega, by omega, ?_⟩, obj.offset + k, ⟨by omega, by omega⟩, ?_⟩ <;>
    rw [← hkw] <;> ring

/-! ## Writes and pages of the scatter-gather call -/

/-- A successful `iommu_allocate_sgtable` issues one write per stride. -/
theorem iommu_allocate_sgtable_write_count (kz : Bool) (root : root_resource)
    (hok : root_ok root = true) (sgtable : List scatterlist) (obj : iommu_obj)
    (root' : root_resource) (ws : List reg_write)
    (h : iommu_allocate_sgtable kz root sgtable = some (some obj, root', ws)) :
    ws.length = sg_strides sgtable := by
  obtain ⟨_, _, _, _, _, _, h7, h8, h9⟩ :=
    iommu_allocate_sgtable_some kz root hok sgtable obj root' ws h
  have hsp := allocate_resource_spec root hok _ _ _ h7
  obtain ⟨hv, _⟩ := sg_loop_eq sgtable (0x9000 + obj.offset * 4)
    (by unfold INT_MAX; omega) ws h9
  have := congrArg List.length hv
  rw [List.length_map, flatMap_segment_values_length] at this
  exact this

/-- Rounding up segment by segment gives at least the rounded-up total. -/
theorem ceil_total_le_sg_strides (sgtable : List scatterlist) :
    (sg_byte_total sgtable + 4095) / 4096 ≤ sg_strides sgtable := by
  induction sgtable with
  | nil => decide
  | cons sg rest ih =>
    have h1 : sg_byte_total (sg :: rest) = sg.dma_len + sg_byte_total rest := by
      simp [sg_byte_total]
    have h2 : sg_strides (sg :: rest) = (sg.dma_len + 4095) / 4096 + sg_strides rest := by
      simp [sg_strides]
    rw [h1, h2]
    omega

/-- When every segment length is a multiple of 4096 the strides are the pages
of the total. -/
theorem sg_strides_of_multiples (sgtable : List scatterlist)
    (h : ∀ sg ∈ sgtable, sg.dma_len % 4096 = 0) :
    sg_strides sgtable = (sg_byte_total sgtable + 4095) / 4096 := by
  have key : sg_strides sgtable * 4096 = sg_byte_total sgtable := by
    induction sgtable with
    | nil => rfl
    | cons sg rest ih =>
      have h0 := h sg (List.mem_cons_self _ _)
      have h1 : sg_byte_total (sg :: rest) = sg.dma_len + sg_byte_total rest := by
        simp [sg_byte_total]
      have h2 : sg_strides (sg :: rest) = (sg.dma_len + 4095) / 4096 + sg_strides rest := by
        simp [sg_strides]
      have ih' := ih (fun sg' hsg' => h sg' (List.mem_cons_of_mem _ hsg'))
      rw [h1, h2]
      omega
  omega

/-- The counts of a successful `iommu_allocate_sgtable` on a table of at most
`2^31 - 4096` bytes in total: the number of writes is the number of strides,
the granted size is `ceil (total / 4096)`, the number of writes is at least
the granted size, and equals it when every segment length is a multiple of
4096. -/
theorem iommu_allocate_sgtable_counts (kz : Bool) (root : root_resource)
    (hok : root_ok root = true) (sgtable : List scatterlist) (obj : iommu_obj)
    (root' : root_resource) (ws : List reg_write)
    (h : iommu_allocate_sgtable kz root sgtable = some (some obj, root', ws))
    (htotal : sg_byte_total sgtable ≤ 2147479552) :
    ws.length = sg_strides sgtable ∧
      obj.size = (((sg_byte_total sgtable + 4095) / 4096 : Nat) : Int) ∧
      obj.size ≤ (ws.length : Int) ∧
      ((∀ sg ∈ sgtable, sg.dma_len % 4096 = 0) → (ws.length : Int) = obj.size) := by
  have hcount := iommu_allocate_sgtable_write_count kz root hok sgtable obj root' ws h
  obtain ⟨_, _, _, h4, _⟩ := iommu_allocate_sgtable_some kz root hok sgtable obj root' ws h
  have hsize : obj.size = (((sg_byte_total sgtable + 4095) / 4096 : Nat) : Int) := by
    rw [h4, sg_pages_eq sgtable htotal]
  have hle := ceil_total_le_sg_strides sgtable
  refine ⟨hcount, hsize, by omega, ?_⟩
  intro hmul
  have := sg_strides_of_multiples sgtable hmul
  omega

/-! ## The writes of the contiguous call and exhaustion, in general form -/

/-- The writes of a successful `iommu_allocate` whose `int pages` holds the
page count `ceil (size / 4096)`: the object records the granted offset
`off = base.start - root.start` and `size = pages`, and the register writes
are exactly `pages` writes, in increasing `i`: the `i`-th has value
`(phys_addr >> 12) + i` and byte offset `0x9000 + (off + i) * 4`.  For
`size = 8192` these are two writes, of `phys_addr >> 12` and
`(phys_addr >> 12) + 1`, at consecutive entries. -/
theorem iommu_allocate_writes (kz : Bool) (root : root_resource) (size phys_addr : Nat)
    (obj : iommu_obj) (root' : root_resource) (ws : List reg_write)
    (hok : root_ok root = true)
    (h : iommu_allocate kz root size phys_addr = (some obj, root', ws))
    (hpages : to_int (GET_IOMMU_PAGES size) = (((size + 4095) / 4096 : Nat) : Int)) :
    allocate_resource root ((size + 4095) / 4096) = some (obj.base, root') ∧
      obj.offset = ((obj.base.start - root.start : Nat) : Int) ∧
      obj.size = (((size + 4095) / 4096 : Nat) : Int) ∧
      ws = (List.range ((size + 4095) / 4096)).map
        (fun i => ⟨(phys_addr >>> 12) + i, 0x9000 + (obj.offset + (i : Nat)) * 4⟩) ∧
      (size = 8192 →
        ws = [⟨phys_addr >>> 12, 0x9000 + obj.offset * 4⟩,
              ⟨(phys_addr >>> 12) + 1, 0x9000 + (obj.offset + 1) * 4⟩]) := by
  obtain ⟨_, h2, _, _, h5, h6, h7⟩ := iommu_allocate_some kz root hok size phys_addr obj root' ws h
  obtain ⟨hs, _, _⟩ := (root_ok_iff root).1 hok
  have hsz : obj.size = (((size + 4095) / 4096 : Nat) : Int) := by rw [h2, hpages]
  have hn : obj.size.toNat = (size + 4095) / 4096 := by rw [hsz]; exact Int.toNat_ofNat _
  have hws : ws = (List.range ((size + 4095) / 4096)).map
      (fun i => ⟨(phys_addr >>> 12) + i, 0x9000 + (obj.offset + (i : Nat)) * 4⟩) := by
    rw [h7, hn, hsz]
    have := iommu_allocate_loop_eq phys_addr ((size + 4095) / 4096) obj.offset 0
    simp only [Nat.cast_zero, Nat.zero_add] at this
    exact this
  refine ⟨by rw [← hn]; exact h5, by rw [h6, hs]; simp, hsz, hws, ?_⟩
  intro h8
  rw [hws, h8]
  simp [List.range_succ]

/-- An instance of `iommu_allocate_writes`: the first mapping of 8192 bytes at
physical address `0x5000` in the empty address space. -/
theorem iommu_allocate_writes_example :
    iommu_allocate true ⟨0, 4095, []⟩ 8192 0x5000 =
        (some ⟨⟨0, 1⟩, 2, 0⟩, ⟨0, 4095, [⟨0, 1⟩]⟩, [⟨5, 0x9000⟩, ⟨6, 0x9004⟩]) ∧
      allocate_resource ⟨0, 4095, []⟩ 2 = some (⟨0, 1⟩, ⟨0, 4095, [⟨0, 1⟩]⟩) :=
  ⟨by decide,
    (iommu_allocate_writes true ⟨0, 4095, []⟩ 8192 0x5000 ⟨⟨0, 1⟩, 2, 0⟩ ⟨0, 4095, [⟨0, 1⟩]⟩
      [⟨5, 0x9000⟩, ⟨6, 0x9004⟩] (by decide) (by decide) (by decide)).1⟩

/-- In bytes: for every `size` of at most `2^44` bytes a successful
`iommu_allocate` records `size = ceil (size / 4096)` pages and issues exactly
that many writes, the `i`-th of value `(phys_addr >> 12) + i` at byte offset
`0x9000 + (off + i) * 4`.  (Above `2^44` bytes the `int pages` of the code no
longer holds the page count.) -/
theorem iommu_allocate_writes_bytes (kz : Bool) (root : root_resource) (size phys_addr : Nat)
    (obj : iommu_obj) (root' : root_resource) (ws : List reg_write)
    (hok : root_ok root = true)
    (h : iommu_allocate kz root size phys_addr = (some obj, root', ws))
    (hsize : size ≤ 17592186044416) :
    allocate_resource root ((size + 4095) / 4096) = some (obj.base, root') ∧
      obj.offset = ((obj.base.start - root.start : Nat) : Int) ∧
      obj.size = (((size + 4095) / 4096 : Nat) : Int) ∧
      ws = (List.range ((size + 4095) / 4096)).map
        (fun i => ⟨(phys_addr >>> 12) + i, 0x9000 + (obj.offset + (i : Nat)) * 4⟩) := by
  have hg : GET_IOMMU_PAGES size = (size + 4095) / 4096 := by
    unfold GET_IOMMU_PAGES
    rw [Nat.mod_eq_of_lt (by omega)]
  obtain ⟨_, h2, h3, h4, _, _, _⟩ := iommu_allocate_some kz root hok size phys_addr obj root' ws h
  have hpages : to_int (GET_IOMMU_PAGES size) = (((size + 4095) / 4096 : Nat) : Int) := by
    rw [h2, hg] at h3 h4
    rw [hg]
    unfold to_int at h3 h4 ⊢
    split at h3 <;> split <;> omega
  obtain ⟨e1, e2, e3, e4, _⟩ :=
    iommu_allocate_writes kz root size phys_addr obj root' ws hok h hpages
  exact ⟨e1, e2, e3, e4⟩

/-- In every well-formed address space, a map call that requests more pages
from the allocator than the largest contiguous free run holds (`pages` in
`iommu_allocate`, the final `total_len` in `iommu_allocate_sgtable` for a byte
total that does not overflow `int`) returns `NULL`, issues no register write
and leaves the address space exactly as it was; the same call on the resulting
address space gives the same result again. -/
theorem map_fails_when_exhausted (root : root_resource) (hok : root_ok root = true) :
    (∀ (kz kz' : Bool) (size phys_addr : Nat),
        ¬ has_free_run root (to_resource_size (to_int (GET_IOMMU_PAGES size))) →
        iommu_allocate kz root size phys_addr = (none, root, []) ∧
          iommu_allocate kz' (iommu_allocate kz root size phys_addr).2.1 size phys_addr =
            (none, root, [])) ∧
      (∀ (kz kz' : Bool) (sgtable : List scatterlist),
        sg_total_len sgtable 0 + 4095 ≤ INT_MAX →
        ¬ has_free_run root (to_resource_size (sg_pages sgtable)) →
        iommu_allocate_sgtable kz root sgtable = some (none, root, []) ∧
          (iommu_allocate_sgtable kz root sgtable).bind
              (fun r => iommu_allocate_sgtable kz' r.2.1 sgtable) =
            some (none, root, [])) := by
  constructor
  · intro kz kz' size phys_addr hrun
    have h1 := iommu_allocate_exhausted kz root hok size phys_addr hrun
    refine ⟨h1, ?_⟩
    rw [h1]
    exact iommu_allocate_exhausted kz' root hok size phys_addr hrun
  · intro kz kz' sgtable hdef hrun
    have h1 := iommu_allocate_sgtable_exhausted kz root hok sgtable hdef hrun
    refine ⟨h1, ?_⟩
    rw [h1]
    exact iommu_allocate_sgtable_exhausted kz' root hok sgtable hdef hrun

/-- An instance of `map_fails_when_exhausted`: with pages 0 to 4094 occupied,
one page is free and a mapping of 8192 bytes (two pages) fails on either path.
-/
theorem map_fails_when_exhausted_example :
    root_ok ⟨0, 4095, [⟨0, 4094⟩]⟩ = true ∧
      to_resource_size (to_int (GET_IOMMU_PAGES 8192)) = 2 ∧
      to_resource_size (sg_pages [⟨0x5000, 8192⟩]) = 2 ∧
      ¬ has_free_run ⟨0, 4095, [⟨0, 4094⟩]⟩ 2 ∧
      iommu_allocate true ⟨0, 4095, [⟨0, 4094⟩]⟩ 8192 0x5000 =
        (none, ⟨0, 4095, [⟨0, 4094⟩]⟩, []) ∧
      iommu_allocate_sgtable true ⟨0, 4095, [⟨0, 4094⟩]⟩ [⟨0x5000, 8192⟩] =
        some (none, ⟨0, 4095, [⟨0, 4094⟩]⟩, []) :=
  have hrun : ¬ has_free_run ⟨0, 4095, [⟨0, 4094⟩]⟩ 2 := by
    rintro ⟨s, _, h2, h3⟩
    have h4 := h3 s (le_refl _) (by omega)
    simp [occupied] at h2 h4
    omega
  ⟨by decide, by decide, by decide, hrun,
    ((map_fails_when_exhausted ⟨0, 4095, [⟨0, 4094⟩]⟩ (by decide)).1 true true 8192 0x5000
      hrun).1,
    ((map_fails_when_exhausted ⟨0, 4095, [⟨0, 4094⟩]⟩ (by decide)).2 true true [⟨0x5000, 8192⟩]
      (by decide) hrun).1⟩

/-! ## The hardware table -/

/-- The last write to a register after two batches of writes. -/
theorem last_write_append (a b : List reg_write) (off : Int) :
    last_write (a ++ b) off =
      match last_write b off with
      | some v => some v
      | none => last_write a off := by
  induction a with
  | nil =>
    simp only [List.nil_append, last_write]
    cases last_write b off <;> rfl
  | cons w a ih =>
    show last_write (w :: (a ++ b)) off = _
    simp only [last_write]
    rw [ih]
    cases last_write b off <;> rfl

/-! ## The claims -/

/-- C1: starting from the freshly initialised address space (range
`[0, 4095]`, nothing allocated), after every finite sequence of
`iommu_allocate`, `iommu_allocate_sgtable` and `iommu_free` (of a live object)
calls, the page ranges `[offset, offset + size)` of the live objects are
pairwise disjoint, non-empty and contained in `[0, 4095]`. -/
theorem live_ranges_disjoint_in_bounds (ops : List Op) (s : State) (ws : List reg_write)
    (h : run initial_state ops = some (s, ws)) :
    s.live.Pairwise obj_disjoint ∧
      ∀ o ∈ s.live, 0 ≤ o.offset ∧ 0 < o.size ∧ o.offset + o.size - 1 ≤ 4095 := by
  obtain ⟨hok, hlive, _, hpw⟩ := Inv_run ops initial_state Inv_initial s ws h
  refine ⟨hpw, ?_⟩
  intro o ho
  obtain ⟨a, b, c, d⟩ := hlive o ho
  obtain ⟨_, _, hch⟩ := (root_ok_iff s.root).1 hok
  have := children_ok_mem _ _ _ hch o.base a
  omega

/-- Witness of C1: two mappings, a free of the first and a third mapping that
takes the freed place. -/
theorem live_ranges_disjoint_in_bounds_witness :
    run initial_state
        [.allocate true 8192 0x5000, .allocate_sgtable true [⟨0x1000, 4096⟩],
          .free ⟨⟨0, 1⟩, 2, 0⟩, .allocate true 4096 0] =
      some (⟨⟨0, 4095, [⟨0, 0⟩, ⟨2, 2⟩]⟩, [⟨⟨0, 0⟩, 1, 0⟩, ⟨⟨2, 2⟩, 1, 2⟩]⟩,
        [⟨5, 0x9000⟩, ⟨6, 0x9004⟩, ⟨1, 0x9008⟩, ⟨0, 0x9000⟩, ⟨0, 0x9004⟩, ⟨0, 0x9000⟩]) ∧
      List.Pairwise obj_disjoint [⟨⟨0, 0⟩, 1, 0⟩, ⟨⟨2, 2⟩, 1, 2⟩] :=
  ⟨by decide,
    (live_ranges_disjoint_in_bounds
      [.allocate true 8192 0x5000, .allocate_sgtable true [⟨0x1000, 4096⟩],
        .free ⟨⟨0, 1⟩, 2, 0⟩, .allocate true 4096 0]
      ⟨⟨0, 4095, [⟨0, 0⟩, ⟨2, 2⟩]⟩, [⟨⟨0, 0⟩, 1, 0⟩, ⟨⟨2, 2⟩, 1, 2⟩]⟩
      [⟨5, 0x9000⟩, ⟨6, 0x9004⟩, ⟨1, 0x9008⟩, ⟨0, 0x9000⟩, ⟨0, 0x9004⟩, ⟨0, 0x9000⟩]
      (by decide)).1⟩

/-- C2, evaluated at a failing input: after `bcwc_buffer_init`, the call of
`iommu_allocate_sgtable` on two segments of one byte each is granted one page
(`offset = 0`, `size = 1`) but writes two table entries, so the entry of page
index 1, which lies outside every live object, holds 2 and not 0. -/
theorem table_entry_outside_live_ranges :
    (bcwc_buffer_init true).1 = some initial_state.root ∧
      run initial_state [.allocate_sgtable true [⟨0x1000, 1⟩, ⟨0x2000, 1⟩]] =
        some (⟨⟨0, 4095, [⟨0, 0⟩]⟩, [⟨⟨0, 0⟩, 1, 0⟩]⟩, [⟨1, 0x9000⟩, ⟨2, 0x9004⟩]) ∧
      (∀ o ∈ [(⟨⟨0, 0⟩, 1, 0⟩ : iommu_obj)], ¬ in_range o 1) ∧
      table_entry ((bcwc_buffer_init true).2 ++ [⟨1, 0x9000⟩, ⟨2, 0x9004⟩]) 1 = some 2 := by
  refine ⟨by decide, by decide, ?_, ?_⟩
  · intro o ho
    rw [List.mem_singleton] at ho
    subst ho
    unfold in_range
    decide
  · unfold table_entry
    rw [last_write_append]
    have h : last_write [⟨1, 0x9000⟩, ⟨2, 0x9004⟩] (0x9000 + 4 * 1) = some 2 := by decide
    rw [h]

/-- C3, evaluated at a failing input: for `size = 2^44 + 4096` the page count
`pages = ceil (size / 4096)` is `2^32 + 1`, yet `iommu_allocate` succeeds in the
empty address space with an object of size 1 and exactly one register write:
neither the recorded size nor the number of writes is `pages`.  (Up to `2^44`
bytes every successful call has the stated form:
`iommu_allocate_writes_bytes`.) -/
theorem contiguous_writes_fewer_than_pages :
    iommu_allocate true ⟨0, 4095, []⟩ 17592186048512 0x5000 =
        (some ⟨⟨0, 0⟩, 1, 0⟩, ⟨0, 4095, [⟨0, 0⟩]⟩, [⟨5, 0x9000⟩]) ∧
      (17592186048512 + 4095) / 4096 = 4294967297 ∧
      List.length [(⟨5, 0x9000⟩ : reg_write)] ≠ (17592186048512 + 4095) / 4096 ∧
      (⟨⟨0, 0⟩, 1, 0⟩ : iommu_obj).size ≠ (((17592186048512 + 4095) / 4096 : Nat) : Int) := by
  decide

/-- C4: when `iommu_allocate_sgtable` succeeds with granted offset
`off = base.start - root.start`, the values of its register writes are the
concatenation, in segment input order, of each segment's values (one per
4096-byte stride of its length, counting up from `addr_s >> 12`), and the
`k`-th write overall targets byte offset `0x9000 + (off + k) * 4`, the count
running on across segment boundaries.  For the list
`[(addr0, 4096), (addr1, 8192)]` these are three writes, of `addr0 >> 12`,
`addr1 >> 12` and `(addr1 >> 12) + 1`, at three consecutive entries. -/
theorem iommu_allocate_sgtable_writes (kz : Bool) (root : root_resource)
    (sgtable : List scatterlist) (obj : iommu_obj) (root' : root_resource) (ws : List reg_write)
    (hok : root_ok root = true)
    (h : iommu_allocate_sgtable kz root sgtable = some (some obj, root', ws)) :
    allocate_resource root obj.size.toNat = some (obj.base, root') ∧
      obj.offset = ((obj.base.start - root.start : Nat) : Int) ∧
      ws.map reg_write.val = sgtable.flatMap segment_values ∧
      ws.map reg_write.offset =
        (List.range ws.length).map (fun k => 0x9000 + (obj.offset + (k : Nat)) * 4) ∧
      (∀ addr0 addr1, sgtable = [⟨addr0, 4096⟩, ⟨addr1, 8192⟩] →
        ws = [⟨addr0 >>> 12, 0x9000 + obj.offset * 4⟩,
              ⟨addr1 >>> 12, 0x9000 + (obj.offset + 1) * 4⟩,
              ⟨(addr1 >>> 12) + 1, 0x9000 + (obj.offset + 2) * 4⟩]) := by
  obtain ⟨_, _, _, _, _, _, h7, h8, h9⟩ :=
    iommu_allocate_sgtable_some kz root hok sgtable obj root' ws h
  obtain ⟨hs, _, _⟩ := (root_ok_iff root).1 hok
  have hsp := allocate_resource_spec root hok _ _ _ h7
  obtain ⟨hv, ho⟩ := sg_loop_eq sgtable (0x9000 + obj.offset * 4)
    (by unfold INT_MAX; omega) ws h9
  have ho' : ws.map reg_write.offset =
      (List.range ws.length).map (fun k => 0x9000 + (obj.offset + (k : Nat)) * 4) := by
    rw [ho]
    apply List.map_congr_left
    intro k _
    ring
  refine ⟨h7, by rw [h8, hs]; simp, hv, ho', ?_⟩
  intro addr0 addr1 hsg
  subst hsg
  have e1 : (4096 + 4095) / 4096 = 1 := by norm_num
  have e2 : (8192 + 4095) / 4096 = 2 := by norm_num
  have hlen : ws.length = 3 := by
    have := congrArg List.length hv
    simp only [List.length_map, segment_values, List.flatMap_cons, List.flatMap_nil,
      List.length_append, List.length_range, List.length_nil, e1, e2] at this
    exact this
  rw [hlen, range_three] at ho'
  obtain ⟨w1, w2, w3, rfl⟩ := List.length_eq_three.1 hlen
  obtain ⟨v1, o1⟩ := w1
  obtain ⟨v2, o2⟩ := w2
  obtain ⟨v3, o3⟩ := w3
  simp only [segment_values, List.flatMap_cons, List.flatMap_nil, e1, e2, range_one, range_two,
    List.map_cons, List.map_nil, List.cons_append, List.nil_append, List.append_nil,
    List.cons.injEq, and_true, Nat.add_zero] at hv
  simp only [List.map_cons, List.map_nil, List.cons.injEq, and_true, Nat.cast_zero,
    Nat.cast_one, Nat.cast_ofNat, add_zero] at ho'
  obtain ⟨rfl, rfl, rfl⟩ := hv
  obtain ⟨rfl, rfl, rfl⟩ := ho'
  rfl

/-- Witness of C4: the list `[(0x1000, 4096), (0x20000, 8192)]` mapped into the
empty address space. -/
theorem iommu_allocate_sgtable_writes_witness :
    iommu_allocate_sgtable true ⟨0, 4095, []⟩ [⟨0x1000, 4096⟩, ⟨0x20000, 8192⟩] =
        some (some ⟨⟨0, 2⟩, 3, 0⟩, ⟨0, 4095, [⟨0, 2⟩]⟩,
          [⟨1, 0x9000⟩, ⟨32, 0x9004⟩, ⟨33, 0x9008⟩]) ∧
      List.map reg_write.val [⟨1, 0x9000⟩, ⟨32, 0x9004⟩, ⟨33, 0x9008⟩] =
        List.flatMap [⟨0x1000, 4096⟩, ⟨0x20000, 8192⟩] segment_values :=
  ⟨by decide,
    (iommu_allocate_sgtable_writes true ⟨0, 4095, []⟩ [⟨0x1000, 4096⟩, ⟨0x20000, 8192⟩]
      ⟨⟨0, 2⟩, 3, 0⟩ ⟨0, 4095, [⟨0, 2⟩]⟩ [⟨1, 0x9000⟩, ⟨32, 0x9004⟩, ⟨33, 0x9008⟩]
      (by decide) (by decide)).2.2.1⟩

/-- C5: for every live object `obj` of a reachable state, `iommu_free` issues
one write of value 0 to the table entry `0x9000 + 4 * i` of every page index
`i` in `[obj.offset, obj.offset + obj.size)`, in increasing order, and no other
write; afterwards no page of that range is occupied, the occupancy of every
other page is as before and the resource of every other live object is still
a child of the root.  (The root starts at 0, so page indices and resource
indices coincide.) -/
theorem iommu_free_clears_and_releases (ops : List Op) (s : State) (ws0 : List reg_write)
    (h : run initial_state ops = some (s, ws0)) (obj : iommu_obj) (hobj : obj ∈ s.live) :
    (iommu_free s.root (some obj)).2 =
        (List.range obj.size.toNat).map
          (fun k => ⟨0, 0x9000 + 4 * (obj.offset + (k : Nat))⟩) ∧
      (∀ w, w ∈ (iommu_free s.root (some obj)).2 ↔
        ∃ i, in_range obj i ∧ w = ⟨0, 0x9000 + 4 * i⟩) ∧
      (∀ p : Nat, in_range obj p → occupied (iommu_free s.root (some obj)).1 p = false) ∧
      (∀ p : Nat, ¬ in_range obj p →
        occupied (iommu_free s.root (some obj)).1 p = occupied s.root p) ∧
      (∀ o ∈ s.live, o ≠ obj → o.base ∈ (iommu_free s.root (some obj)).1.child) := by
  have hinv := Inv_run ops initial_state Inv_initial s ws0 h
  obtain ⟨hok, hlive, _, hpw⟩ := hinv
  obtain ⟨hb, hoff, hend, hsz⟩ := hlive obj hobj
  have hws : (iommu_free s.root (some obj)).2 =
      (List.range obj.size.toNat).map
        (fun k => ⟨0, 0x9000 + 4 * (obj.offset + (k : Nat))⟩) := by
    show iommu_free_loop (obj.offset + obj.size) obj.size.toNat obj.offset = _
    have hn : obj.size = ((obj.size.toNat : Nat) : Int) := by omega
    have := iommu_free_loop_eq obj.size.toNat obj.offset
    rw [← hn] at this
    rw [this]
    apply List.map_congr_left
    intro k _
    simp only [reg_write.mk.injEq, true_and]
    ring
  have hrel : (iommu_free s.root (some obj)).1 = release_resource s.root obj.base := rfl
  refine ⟨hws, ?_, ?_, ?_, ?_⟩
  · intro w
    rw [hws, List.mem_map]
    constructor
    · rintro ⟨k, hk, rfl⟩
      rw [List.mem_range] at hk
      exact ⟨obj.offset + k, ⟨by omega, by omega⟩, rfl⟩
    · rintro ⟨i, ⟨h1, h2⟩, rfl⟩
      refine ⟨(i - obj.offset).toNat, ?_, ?_⟩
      · rw [List.mem_range]; omega
      · have : obj.offset + (((i - obj.offset).toNat : Nat) : Int) = i := by omega
        rw [this]
  · intro p hp
    rw [hrel, occupied_release s.root hok obj.base hb p]
    unfold in_range at hp
    rw [if_pos (by omega)]
  · intro p hp
    rw [hrel, occupied_release s.root hok obj.base hb p]
    unfold in_range at hp
    rw [if_neg (by omega)]
  · intro o ho hne
    have hlnd : s.live.Nodup := by
      refine List.Pairwise.imp_of_mem ?_ hpw
      intro a b ha _ hab e
      subst e
      obtain ⟨_, _, _, d1⟩ := hlive a ha
      unfold obj_disjoint at hab
      omega
    have hfree := Inv_free s ⟨hok, hlive, by assumption, hpw⟩ obj hobj
    exact (hfree.2.1 o ((hlnd.mem_erase_iff).2 ⟨hne, ho⟩)).1

/-- Witness of C5: the free of the first of two live mappings. -/
theorem iommu_free_clears_and_releases_witness :
    run initial_state [.allocate true 8192 0x5000, .allocate true 4096 0] =
        some (⟨⟨0, 4095, [⟨0, 1⟩, ⟨2, 2⟩]⟩, [⟨⟨2, 2⟩, 1, 2⟩, ⟨⟨0, 1⟩, 2, 0⟩]⟩,
          [⟨5, 0x9000⟩, ⟨6, 0x9004⟩, ⟨0, 0x9008⟩]) ∧
      (iommu_free ⟨0, 4095, [⟨0, 1⟩, ⟨2, 2⟩]⟩ (some ⟨⟨0, 1⟩, 2, 0⟩)).2 =
        (List.range (2 : Int).toNat).map (fun k => ⟨0, 0x9000 + 4 * ((0 : Int) + (k : Nat))⟩) :=
  ⟨by decide,
    (iommu_free_clears_and_releases [.allocate true 8192 0x5000, .allocate true 4096 0]
      ⟨⟨0, 4095, [⟨0, 1⟩, ⟨2, 2⟩]⟩, [⟨⟨2, 2⟩, 1, 2⟩, ⟨⟨0, 1⟩, 2, 0⟩]⟩
      [⟨5, 0x9000⟩, ⟨6, 0x9004⟩, ⟨0, 0x9008⟩] (by decide) ⟨⟨0, 1⟩, 2, 0⟩ (by decide)).1⟩

/-- C6, evaluated at a failing input: `iommu_allocate_sgtable` on two segments
of one byte each writes the table entries at `0x9000` and `0x9004` for an
object of one page; the following `iommu_free` of that object writes 0 to
`0x9000` only, so the entry at `0x9004` written by the map call is not
cleared.  (On the contiguous path, and on the scatter-gather path whenever as
many entries were written as pages were granted, the free clears exactly the
written entries: `iommu_free_after_iommu_allocate`,
`iommu_free_after_iommu_allocate_sgtable`.) -/
theorem iommu_free_misses_written_entry :
    iommu_allocate_sgtable true ⟨0, 4095, []⟩ [⟨0x1000, 1⟩, ⟨0x2000, 1⟩] =
        some (some ⟨⟨0, 0⟩, 1, 0⟩, ⟨0, 4095, [⟨0, 0⟩]⟩, [⟨1, 0x9000⟩, ⟨2, 0x9004⟩]) ∧
      iommu_free ⟨0, 4095, [⟨0, 0⟩]⟩ (some ⟨⟨0, 0⟩, 1, 0⟩) =
        (⟨0, 4095, []⟩, [⟨0, 0x9000⟩]) ∧
      (⟨0, 0x9004⟩ : reg_write) ∉ [(⟨0, 0x9000⟩ : reg_write)] := by
  decide

/-- C7, evaluated at a failing input: for `size = 2^44 + 4096` the page count
`ceil (size / 4096)` is `2^32 + 1`, greater than 4095, but the `int pages` of
the code holds its low 32 bits, 1, and `iommu_allocate` returns an object of
one page and issues a register write.  (Up to `2^44` bytes the rejection
holds: `iommu_allocate_rejects_bytes`.) -/
theorem iommu_allocate_truncates_pages :
    (17592186048512 + 4095) / 4096 = 4294967297 ∧
      GET_IOMMU_PAGES 17592186048512 = 4294967297 ∧
      to_int (GET_IOMMU_PAGES 17592186048512) = 1 ∧
      iommu_allocate true ⟨0, 4095, []⟩ 17592186048512 0x5000 =
        (some ⟨⟨0, 0⟩, 1, 0⟩, ⟨0, 4095, [⟨0, 0⟩]⟩, [⟨5, 0x9000⟩]) := by
  decide

/-- C8: for every segment list that is empty or whose segment lengths are all
zero, `iommu_allocate_sgtable` returns `NULL`, leaves the address space as it
was and issues no register write. -/
theorem iommu_allocate_sgtable_zero_length (kz : Bool) (root : root_resource)
    (sgtable : List scatterlist) (h : ∀ sg ∈ sgtable, sg.dma_len = 0) :
    iommu_allocate_sgtable kz root sgtable = some (none, root, []) := by
  unfold iommu_allocate_sgtable
  simp only [sg_total_len_zero sgtable h, if_true]

/-- Witness of C8: two segments of length zero, and the empty list. -/
theorem iommu_allocate_sgtable_zero_length_witness :
    (∀ sg ∈ [(⟨0x1000, 0⟩ : scatterlist), ⟨0x2000, 0⟩], sg.dma_len = 0) ∧
      iommu_allocate_sgtable true ⟨0, 4095, [⟨0, 1⟩]⟩ [⟨0x1000, 0⟩, ⟨0x2000, 0⟩] =
        some (none, ⟨0, 4095, [⟨0, 1⟩]⟩, []) :=
  ⟨by decide,
    iommu_allocate_sgtable_zero_length true ⟨0, 4095, [⟨0, 1⟩]⟩ [⟨0x1000, 0⟩, ⟨0x2000, 0⟩]
      (by decide)⟩

/-- C9, evaluated at failing inputs, both in the empty address space, whose
largest free run is 4096 pages.  Contiguous: `size = 2^44 + 4096` has page
count `2^32 + 1`, more than any free run, yet `iommu_allocate` succeeds: the
`int pages` of the code holds 1.  Scattered: four segments of `2^30` bytes and
one of 4096 bytes have page count `2^20 + 1`, more than any free run, yet
`iommu_allocate_sgtable` succeeds and writes: the `int total_len` of the code
holds 4096.  (A call that requests more pages from the allocator than the
largest free run holds does fail and changes nothing:
`map_fails_when_exhausted`; in bytes, up to `2^44` bytes and byte totals up to
`2^31 - 4096`: `iommu_allocate_exhausted_bytes`,
`iommu_allocate_sgtable_exhausted_bytes`.) -/
theorem map_succeeds_beyond_free_run :
    ¬ has_free_run ⟨0, 4095, []⟩ ((17592186048512 + 4095) / 4096) ∧
      iommu_allocate true ⟨0, 4095, []⟩ 17592186048512 0x5000 =
        (some ⟨⟨0, 0⟩, 1, 0⟩, ⟨0, 4095, [⟨0, 0⟩]⟩, [⟨5, 0x9000⟩]) ∧
      ¬ has_free_run ⟨0, 4095, []⟩
        ((sg_byte_total
            [⟨0, 1073741824⟩, ⟨0, 1073741824⟩, ⟨0, 1073741824⟩, ⟨0, 1073741824⟩,
              ⟨0, 4096⟩] + 4095) / 4096) ∧
      ∃ ws, iommu_allocate_sgtable true ⟨0, 4095, []⟩
            [⟨0, 1073741824⟩, ⟨0, 1073741824⟩, ⟨0, 1073741824⟩, ⟨0, 1073741824⟩,
              ⟨0, 4096⟩] =
          some (some ⟨⟨0, 0⟩, 1, 0⟩, ⟨0, 4095, [⟨0, 0⟩]⟩, ws) ∧
        ws.length = 1048577 := by
  have hno : ∀ n, 4096 < n → ¬ has_free_run ⟨0, 4095, []⟩ n := by
    intro n hn hrun
    have := has_free_run_le ⟨0, 4095, []⟩ (by decide) n hrun
    omega
  have hp : sg_pages
      [⟨0, 1073741824⟩, ⟨0, 1073741824⟩, ⟨0, 1073741824⟩, ⟨0, 1073741824⟩, ⟨0, 4096⟩] = 1 := by
    decide
  obtain ⟨ws, h⟩ := iommu_allocate_sgtable_of_alloc ⟨0, 4095, []⟩ (by decide)
    [⟨0, 1073741824⟩, ⟨0, 1073741824⟩, ⟨0, 1073741824⟩, ⟨0, 1073741824⟩, ⟨0, 4096⟩]
    ⟨0, 0⟩ ⟨0, 4095, [⟨0, 0⟩]⟩ (by decide) (by decide) (by decide) (by decide)
    (by decide) (by decide)
  rw [hp] at h
  refine ⟨hno _ (by decide), by decide, hno _ (by decide), ws, h, ?_⟩
  rw [iommu_allocate_sgtable_write_count true _ (by decide) _ _ _ _ h]
  decide

/-- C10 as stated fails: in the empty address space a request of one page
meets every condition of the claim, yet `iommu_allocate` returns `NULL` when
the `kzalloc` of the object fails. -/
theorem iommu_allocate_fails_without_memory :
    root_ok ⟨0, 4095, []⟩ = true ∧ (4096 + 4095) / 4096 = 1 ∧
      has_free_run ⟨0, 4095, []⟩ ((4096 + 4095) / 4096) ∧
      iommu_allocate false ⟨0, 4095, []⟩ 4096 0 = (none, ⟨0, 4095, []⟩, []) :=
  ⟨by decide, by decide, ⟨0, by decide, by decide, fun p _ _ => rfl⟩, by decide⟩

/-- C10, amended: in every well-formed address space and for every `size`
with `1 ≤ pages = ceil (size / 4096) ≤ 4095`, if the address space has a run of
at least `pages` contiguous free page indices and the `kzalloc` of the object
succeeds, then `iommu_allocate` succeeds, and the returned object has size
exactly `pages` and a range `[offset, offset + pages)` that was entirely free
before the call and is occupied after it. -/
theorem iommu_allocate_succeeds (root : root_resource) (hok : root_ok root = true)
    (size phys_addr : Nat) (h1 : 1 ≤ (size + 4095) / 4096) (h2 : (size + 4095) / 4096 ≤ 4095)
    (hrun : has_free_run root ((size + 4095) / 4096)) :
    ∃ obj root' ws, iommu_allocate true root size phys_addr = (some obj, root', ws) ∧
      obj.size = (((size + 4095) / 4096 : Nat) : Int) ∧ 0 ≤ obj.offset ∧
      free_run root obj.offset.toNat ((size + 4095) / 4096) ∧
      (∀ p : Nat, in_range obj p → occupied root' p = true) := by
  have hp := GET_IOMMU_PAGES_eq size (by omega)
  obtain ⟨new, root', halloc⟩ := allocate_resource_of_free_run root hok _ (by omega) hrun
  have halloc' : allocate_resource root (to_int (GET_IOMMU_PAGES size)).toNat =
      some (new, root') := by
    rw [hp, Int.toNat_ofNat]; exact halloc
  obtain ⟨ws, hres⟩ := iommu_allocate_of_alloc root hok size phys_addr new root'
    (by omega) (by omega) halloc'
  obtain ⟨_, e2, _, _, e5, _, _⟩ := allocate_resource_spec root hok _ new root' halloc
  refine ⟨_, root', ws, hres, hp, by simp, ?_, ?_⟩
  · simpa using allocate_resource_free_run root hok _ new root' halloc
  · intro p hp'
    unfold in_range at hp'
    simp only [hp] at hp'
    rw [occupied_iff]
    exact ⟨new, (e5 new).2 (Or.inl rfl), by omega, by omega⟩

/-- Witness of C10: one page requested with pages 0 and 1 occupied. -/
theorem iommu_allocate_succeeds_witness :
    has_free_run ⟨0, 4095, [⟨0, 1⟩]⟩ ((4096 + 4095) / 4096) ∧
      ∃ obj root' ws, iommu_allocate true ⟨0, 4095, [⟨0, 1⟩]⟩ 4096 0 = (some obj, root', ws) ∧
        obj.size = (((4096 + 4095) / 4096 : Nat) : Int) ∧ 0 ≤ obj.offset ∧
        free_run ⟨0, 4095, [⟨0, 1⟩]⟩ obj.offset.toNat ((4096 + 4095) / 4096) ∧
        (∀ p : Nat, in_range obj p → occupied root' p = true) :=
  have hrun : has_free_run ⟨0, 4095, [⟨0, 1⟩]⟩ ((4096 + 4095) / 4096) :=
    ⟨2, by decide, by decide, fun p h1 h2 => by
      have h3 : (4096 + 4095) / 4096 = 1 := by decide
      rw [h3] at h2
      have h4 : p = 2 := by omega
      subst h4
      decide⟩
  ⟨hrun, iommu_allocate_succeeds ⟨0, 4095, [⟨0, 1⟩]⟩ (by decide) 4096 0 (by decide) (by decide)
    hrun⟩

/-- C11: for every reachable state and every live object of size `n`, after
`iommu_free` of that object the released range is free, and a following
allocation of `m` pages with `1 ≤ m ≤ n` succeeds: the allocator grants a
range that is free in the address space after the release and starts no
higher than the released range, and `iommu_allocate` of a size of `m ≤ 4095`
pages (with `kzalloc` succeeding) returns the object of that range. -/
theorem release_makes_range_available (ops : List Op) (s : State) (ws0 : List reg_write)
    (h : run initial_state ops = some (s, ws0)) (obj : iommu_obj) (hobj : obj ∈ s.live)
    (m : Nat) (hm1 : 1 ≤ m) (hm2 : (m : Int) ≤ obj.size) :
    free_run (iommu_free s.root (some obj)).1 obj.offset.toNat obj.size.toNat ∧
      ∃ base root'',
        allocate_resource (iommu_free s.root (some obj)).1 m = some (base, root'') ∧
        free_run (iommu_free s.root (some obj)).1 base.start m ∧
        base.start ≤ obj.offset.toNat ∧
        (∀ size phys_addr, (size + 4095) / 4096 = m → m ≤ 4095 →
          ∃ ws, iommu_allocate true (iommu_free s.root (some obj)).1 size phys_addr =
            (some ⟨base, (m : Int), (base.start : Int)⟩, root'', ws)) := by
  have hinv := Inv_run ops initial_state Inv_initial s ws0 h
  have hinv' := Inv_free s hinv obj hobj
  obtain ⟨hok, hlive, _, _⟩ := hinv
  obtain ⟨hb, hoff, hend, hsz⟩ := hlive obj hobj
  have hok' : root_ok (release_resource s.root obj.base) = true := hinv'.1
  obtain ⟨hs, he, hch⟩ := (root_ok_iff s.root).1 hok
  obtain ⟨hs', he', _⟩ := (root_ok_iff _).1 hok'
  have hbb := children_ok_mem _ _ _ hch obj.base hb
  show free_run (release_resource s.root obj.base) _ _ ∧ _
  have hfree : ∀ k : Nat, 1 ≤ k → (k : Int) ≤ obj.size →
      free_run (release_resource s.root obj.base) obj.offset.toNat k := by
    intro k _ hk
    refine ⟨by omega, by omega, ?_⟩
    intro p hp1 hp2
    rw [occupied_release s.root hok obj.base hb p, if_pos (by omega)]
  refine ⟨hfree obj.size.toNat (by omega) (by omega), ?_⟩
  obtain ⟨base, root'', halloc⟩ := allocate_resource_of_free_run _ hok' m (by omega)
    ⟨_, hfree m hm1 hm2⟩
  refine ⟨base, root'', halloc, allocate_resource_free_run _ hok' _ _ _ halloc,
    allocate_resource_first_fit _ hok' _ _ _ halloc _ (hfree m hm1 hm2), ?_⟩
  intro size phys_addr hsize hm3
  have hp := GET_IOMMU_PAGES_eq size (by omega)
  rw [hsize] at hp
  obtain ⟨ws, hres⟩ := iommu_allocate_of_alloc _ hok' size phys_addr base root''
    (by omega) (by omega) (by rw [hp, Int.toNat_ofNat]; exact halloc)
  rw [hp] at hres
  exact ⟨ws, hres⟩

/-- Witness of C11: a mapping of two pages, its release, and the following
allocation of two pages. -/
theorem release_makes_range_available_witness :
    run initial_state [.allocate true 8192 0x5000] =
        some (⟨⟨0, 4095, [⟨0, 1⟩]⟩, [⟨⟨0, 1⟩, 2, 0⟩]⟩, [⟨5, 0x9000⟩, ⟨6, 0x9004⟩]) ∧
      ∃ base root'',
        allocate_resource (iommu_free ⟨0, 4095, [⟨0, 1⟩]⟩ (some ⟨⟨0, 1⟩, 2, 0⟩)).1 2 =
          some (base, root'') ∧ base.start ≤ (0 : Int).toNat :=
  ⟨by decide,
    match (release_makes_range_available [.allocate true 8192 0x5000]
      ⟨⟨0, 4095, [⟨0, 1⟩]⟩, [⟨⟨0, 1⟩, 2, 0⟩]⟩ [⟨5, 0x9000⟩, ⟨6, 0x9004⟩] (by decide)
      ⟨⟨0, 1⟩, 2, 0⟩ (by decide) 2 (by decide) (by decide)).2 with
    | ⟨base, root'', h1, _, h3, _⟩ => ⟨base, root'', h1, h3⟩⟩

/-- C12, evaluated at a failing input: in the empty address space
`iommu_allocate_sgtable` on one segment of `2^24` bytes returns an object of
4096 pages, more than 4095.  (`iommu_allocate` rejects more than 4095 pages and
the other bounds hold on both paths: `iommu_allocate_object_bounds`,
`iommu_allocate_sgtable_object_bounds`.) -/
theorem iommu_allocate_sgtable_grants_4096 :
    ∃ ws, iommu_allocate_sgtable true ⟨0, 4095, []⟩ [⟨0, 16777216⟩] =
      some (some ⟨⟨0, 4095⟩, 4096, 0⟩, ⟨0, 4095, [⟨0, 4095⟩]⟩, ws) := by
  have hp : sg_pages [⟨0, 16777216⟩] = 4096 := by decide
  have h := iommu_allocate_sgtable_of_alloc ⟨0, 4095, []⟩ (by decide) [⟨0, 16777216⟩]
    ⟨0, 4095⟩ ⟨0, 4095, [⟨0, 4095⟩]⟩ (by decide) (by decide) (by decide) (by decide)
    (by decide) (by decide)
  rw [hp] at h
  exact h

/-- C13, evaluated at a failing input: `iommu_allocate_sgtable` on two segments
of one byte each is granted `ceil (2 / 4096) = 1` page at offset 0 but issues
two register writes, and the second targets page index 1, outside
`[offset, offset + size) = [0, 1)`. -/
theorem sgtable_writes_exceed_granted_pages :
    iommu_allocate_sgtable true ⟨0, 4095, []⟩ [⟨0x1000, 1⟩, ⟨0x2000, 1⟩] =
        some (some ⟨⟨0, 0⟩, 1, 0⟩, ⟨0, 4095, [⟨0, 0⟩]⟩, [⟨1, 0x9000⟩, ⟨2, 0x9004⟩]) ∧
      (sg_byte_total [⟨0x1000, 1⟩, ⟨0x2000, 1⟩] + 4095) / 4096 = 1 ∧
      List.length [(⟨1, 0x9000⟩ : reg_write), ⟨2, 0x9004⟩] = 2 ∧
      (⟨2, 0x9004⟩ : reg_write).offset = 0x9000 + 4 * 1 ∧
      ¬ in_range ⟨⟨0, 0⟩, 1, 0⟩ 1 := by
  refine ⟨by decide, by decide, by decide, by decide, ?_⟩
  unfold in_range
  decide

/-- C14: `iommu_free` called with the `NULL` object is a no-op in every state:
it issues no register write and leaves the address space, and so the
occupancy of every page, unchanged. -/
theorem iommu_free_null (root : root_resource) :
    iommu_free root none = (root, []) ∧
      ∀ p, occupied (iommu_free root none).1 p = occupied root p :=
  ⟨rfl, fun _ => rfl⟩

/-- C15: `bcwc_buffer_init` writes 0 to each of the 4096 table entries at byte
offsets `0x9000 + 4 * i` for `i` in `[0, 4096)`, in increasing order and
whatever the outcome of `kzalloc`; when the backing storage is available it
produces the address space with `start = 0`, `end = 4095` and no child, in
which no page is occupied; and it returns the out-of-memory error exactly when
the backing storage cannot be created. -/
theorem bcwc_buffer_init_spec :
    (∀ kz, (bcwc_buffer_init kz).2 =
        (List.range 4096).map (fun i => (⟨0, 0x9000 + 4 * ((i : Nat) : Int)⟩ : reg_write))) ∧
      (bcwc_buffer_init true).1 = some ⟨0, 4095, []⟩ ∧
      (∀ p, occupied ⟨0, 4095, []⟩ p = false) ∧
      (∀ kz, (bcwc_buffer_init kz).1 = none ↔ kz = false) := by
  refine ⟨?_, rfl, fun _ => rfl, ?_⟩
  · intro kz
    have h := bcwc_buffer_init_loop_eq 4096 0 (by omega)
    simp only [Nat.cast_zero, Nat.zero_add] at h
    exact h
  · intro kz
    cases kz
    · exact ⟨fun _ => rfl, fun _ => rfl⟩
    · constructor
      · intro h
        exact absurd h (by decide)
      · intro h
        exact absurd h (by decide)

/-- C16: allocation is first-fit and the object's offset is relative to the
range start: in every well-formed address space, for every successful map
call (either path) the returned offset is the first index of the range the
allocator granted for `size` pages minus the range start, the `size` indices
from it on were free, it is the lowest page index at which `size` contiguous
free indices exist, and it is 0 when the address space is empty. -/
theorem allocation_is_first_fit (root : root_resource) (hok : root_ok root = true)
    (obj : iommu_obj) (root' : root_resource) (ws : List reg_write)
    (h : (∃ kz size phys_addr, iommu_allocate kz root size phys_addr = (some obj, root', ws)) ∨
      (∃ kz sgtable, iommu_allocate_sgtable kz root sgtable = some (some obj, root', ws))) :
    allocate_resource root obj.size.toNat = some (obj.base, root') ∧
      obj.offset = ((obj.base.start - root.start : Nat) : Int) ∧
      free_run root obj.offset.toNat obj.size.toNat ∧
      (∀ s : Nat, free_run root s obj.size.toNat → obj.offset ≤ (s : Int)) ∧
      (root.child = [] → obj.offset = 0) := by
  obtain ⟨hs, he, _⟩ := (root_ok_iff root).1 hok
  have key : allocate_resource root obj.size.toNat = some (obj.base, root') ∧
      obj.offset = (obj.base.start : Int) ∧ 1 ≤ obj.size ∧ obj.size ≤ 4096 := by
    rcases h with ⟨kz, size, phys_addr, h⟩ | ⟨kz, sgtable, h⟩
    · obtain ⟨_, _, h3, h4, h5, h6, _⟩ :=
        iommu_allocate_some kz root hok size phys_addr obj root' ws h
      exact ⟨h5, h6, h3, by omega⟩
    · obtain ⟨_, _, _, _, h5, h6, h7, h8, _⟩ :=
        iommu_allocate_sgtable_some kz root hok sgtable obj root' ws h
      exact ⟨h7, h8, h5, h6⟩
  obtain ⟨halloc, hoff, h1, h2⟩ := key
  have hrun := allocate_resource_free_run root hok _ _ _ halloc
  have hfirst := allocate_resource_first_fit root hok _ _ _ halloc
  have hoff' : obj.offset.toNat = obj.base.start := by omega
  refine ⟨halloc, by rw [hoff, hs]; simp, by rw [hoff']; exact hrun, ?_, ?_⟩
  · intro s hsrun
    have := hfirst s hsrun
    omega
  · intro hempty
    have h0 : free_run root 0 obj.size.toNat := by
      refine ⟨by omega, by omega, ?_⟩
      intro p _ _
      simp [occupied, hempty]
    have := hfirst 0 h0
    omega

/-- Witness of C16: with pages 0 and 2 occupied, a mapping of two pages is
granted offset 3. -/
theorem allocation_is_first_fit_witness :
    iommu_allocate true ⟨0, 4095, [⟨0, 0⟩, ⟨2, 2⟩]⟩ 8192 0x5000 =
        (some ⟨⟨3, 4⟩, 2, 3⟩, ⟨0, 4095, [⟨0, 0⟩, ⟨2, 2⟩, ⟨3, 4⟩]⟩,
          [⟨5, 0x900c⟩, ⟨6, 0x9010⟩]) ∧
      ∀ s : Nat, free_run ⟨0, 4095, [⟨0, 0⟩, ⟨2, 2⟩]⟩ s (2 : Int).toNat → (3 : Int) ≤ (s : Int) :=
  ⟨by decide,
    (allocation_is_first_fit ⟨0, 4095, [⟨0, 0⟩, ⟨2, 2⟩]⟩ (by decide) ⟨⟨3, 4⟩, 2, 3⟩
      ⟨0, 4095, [⟨0, 0⟩, ⟨2, 2⟩, ⟨3, 4⟩]⟩ [⟨5, 0x900c⟩, ⟨6, 0x9010⟩]
      (Or.inl ⟨true, 8192, 0x5000, by decide⟩)).2.2.2.1⟩

/-- C17, evaluated at a failing input: the state with pages 0 to 4094
occupied is reachable (one mapping of 4095 pages); in it
`iommu_allocate_sgtable` on two segments of one byte each is granted the one
page 4095 and writes the entries of pages 4095 and 4096, the second at byte
offset `0x9000 + 4096 * 4`, past the end of the table.  (The writes of
`bcwc_buffer_init`, `iommu_allocate` and `iommu_free` stay inside the table:
`bcwc_buffer_init_in_table`, `iommu_allocate_in_table`,
`iommu_free_in_table`.) -/
theorem sgtable_write_leaves_table :
    (∃ ws, run initial_state [.allocate true 16773120 0] =
        some (⟨⟨0, 4095, [⟨0, 4094⟩]⟩, [⟨⟨0, 4094⟩, 4095, 0⟩]⟩, ws)) ∧
      iommu_allocate_sgtable true ⟨0, 4095, [⟨0, 4094⟩]⟩ [⟨0x1000, 1⟩, ⟨0x2000, 1⟩] =
        some (some ⟨⟨4095, 4095⟩, 1, 4095⟩, ⟨0, 4095, [⟨0, 4094⟩, ⟨4095, 4095⟩]⟩,
          [⟨1, 0xcffc⟩, ⟨2, 0xd000⟩]) ∧
      (0xd000 : Int) = 0x9000 + 4096 * 4 ∧ ¬ in_table ⟨2, 0xd000⟩ := by
  refine ⟨?_, by decide, by decide, ?_⟩
  · obtain ⟨ws, hws⟩ := iommu_allocate_of_alloc ⟨0, 4095, []⟩ (by decide) 16773120 0
      ⟨0, 4094⟩ ⟨0, 4095, [⟨0, 4094⟩]⟩ (by decide) (by decide) (by decide)
    have e : to_int (GET_IOMMU_PAGES 16773120) = 4095 := by decide
    rw [e] at hws
    refine ⟨ws ++ [], ?_⟩
    have hstep : step initial_state (.allocate true 16773120 0) =
        some (⟨⟨0, 4095, [⟨0, 4094⟩]⟩, [⟨⟨0, 4094⟩, 4095, 0⟩]⟩, ws) := by
      show some (record_result initial_state
        (iommu_allocate true ⟨0, 4095, []⟩ 16773120 0)) = _
      rw [hws]
      rfl
    simp only [run, hstep]
  · rintro ⟨i, h1, h2, h3⟩
    simp only at h3
    omega

/-- C18, evaluated at a failing input: for four segments of `2^30` bytes and
one of 4096 bytes the byte total `2^32 + 4096` does not fit the `int total_len`
of the code, which holds 4096; in the empty address space
`iommu_allocate_sgtable` is granted 1 page, not `ceil (total / 4096) = 2^20 + 1`
pages, and issues `2^20 + 1` writes although every segment length is a multiple
of 4096.  (For byte totals up to `2^31 - 4096` the claim holds:
`iommu_allocate_sgtable_counts`.) -/
theorem iommu_allocate_sgtable_total_wraps :
    ∃ ws, iommu_allocate_sgtable true ⟨0, 4095, []⟩
          [⟨0, 1073741824⟩, ⟨0, 1073741824⟩, ⟨0, 1073741824⟩, ⟨0, 1073741824⟩, ⟨0, 4096⟩] =
        some (some ⟨⟨0, 0⟩, 1, 0⟩, ⟨0, 4095, [⟨0, 0⟩]⟩, ws) ∧
      ws.length = 1048577 ∧
      (sg_byte_total
          [⟨0, 1073741824⟩, ⟨0, 1073741824⟩, ⟨0, 1073741824⟩, ⟨0, 1073741824⟩, ⟨0, 4096⟩] +
        4095) / 4096 = 1048577 ∧
      sg_total_len
          [⟨0, 1073741824⟩, ⟨0, 1073741824⟩, ⟨0, 1073741824⟩, ⟨0, 1073741824⟩, ⟨0, 4096⟩] 0 =
        4096 ∧
      ∀ sg ∈ [(⟨0, 1073741824⟩ : scatterlist), ⟨0, 1073741824⟩, ⟨0, 1073741824⟩,
          ⟨0, 1073741824⟩, ⟨0, 4096⟩], sg.dma_len % 4096 = 0 := by
  have hp : sg_pages
      [⟨0, 1073741824⟩, ⟨0, 1073741824⟩, ⟨0, 1073741824⟩, ⟨0, 1073741824⟩, ⟨0, 4096⟩] = 1 := by
    decide
  obtain ⟨ws, h⟩ := iommu_allocate_sgtable_of_alloc ⟨0, 4095, []⟩ (by decide)
    [⟨0, 1073741824⟩, ⟨0, 1073741824⟩, ⟨0, 1073741824⟩, ⟨0, 1073741824⟩, ⟨0, 4096⟩]
    ⟨0, 0⟩ ⟨0, 4095, [⟨0, 0⟩]⟩ (by decide) (by decide) (by decide) (by decide)
    (by decide) (by decide)
  rw [hp] at h
  refine ⟨ws, h, ?_, by decide, by decide, by decide⟩
  rw [iommu_allocate_sgtable_write_count true _ (by decide) _ _ _ _ h]
  decide

/-- C19: the scatter-gather path agrees with the contiguous path on a single
segment: in every well-formed address space, for every address `addr` and
every length `len` with `1 ≤ ceil (len / 4096) ≤ 4095`, and for the same outcome
of `kzalloc`, `iommu_allocate_sgtable` on the one-segment table `[(addr, len)]`
has a result and it is the result of `iommu_allocate (len, addr)`: both return
`NULL`, or both return an object with the same offset and size, with the same
address space afterwards and the same sequence of register writes. -/
theorem sgtable_single_segment_agrees (kz : Bool) (root : root_resource)
    (hok : root_ok root = true) (addr len : Nat) (h1 : 1 ≤ (len + 4095) / 4096)
    (h2 : (len + 4095) / 4096 ≤ 4095) :
    iommu_allocate_sgtable kz root [⟨addr, len⟩] = some (iommu_allocate kz root len addr) := by
  obtain ⟨hs, _, _⟩ := (root_ok_iff root).1 hok
  have ht : sg_total_len [⟨addr, len⟩] 0 = (len : Int) := by
    have := sg_total_len_eq [⟨addr, len⟩] 0 (by simp [sg_byte_total]; omega)
    simpa [sg_byte_total] using this
  have hp := GET_IOMMU_PAGES_eq len (by omega)
  have htd : Int.tdiv ((len : Int) + 4095) 4096 = (((len + 4095) / 4096 : Nat) : Int) := by
    rw [Int.tdiv_eq_ediv (by omega) (by omega)]
    omega
  have hrs : to_resource_size (((len + 4095) / 4096 : Nat) : Int) = (len + 4095) / 4096 := by
    rw [to_resource_size_of_nonneg _ (by omega) (by omega), Int.toNat_ofNat]
  have hc1 : ¬ ((((len + 4095) / 4096 : Nat) : Int) = 0 ∨
      (((len + 4095) / 4096 : Nat) : Int) > 4095) := by omega
  have hc2 : ¬ ((len : Int) = 0) := by omega
  have hc3 : ¬ ((len : Int) + 4095 > INT_MAX) := by unfold INT_MAX; omega
  have hA : iommu_allocate kz root len addr =
      if !kz then (none, root, [])
      else
        match allocate_resource root ((len + 4095) / 4096) with
        | none => (none, root, [])
        | some (base, root') =>
          (some ⟨base, (((len + 4095) / 4096 : Nat) : Int),
              to_int ((base.start + 18446744073709551616 - root.start) %
                18446744073709551616)⟩, root',
            iommu_allocate_loop addr
              (to_int ((base.start + 18446744073709551616 - root.start) %
                18446744073709551616) + (((len + 4095) / 4096 : Nat) : Int))
              ((len + 4095) / 4096)
              (to_int ((base.start + 18446744073709551616 - root.start) %
                18446744073709551616)) 0) := by
    unfold iommu_allocate
    simp only [hp, hrs, Int.toNat_ofNat]
    rw [if_neg hc1]
  have hB : iommu_allocate_sgtable kz root [⟨addr, len⟩] =
      if !kz then some (none, root, [])
      else
        match allocate_resource root ((len + 4095) / 4096) with
        | none => some (none, root, [])
        | some (base, root') =>
          if 0x9000 + to_int ((base.start + 18446744073709551616 - root.start) %
              18446744073709551616) * 4 > INT_MAX then none
          else
            match sg_loop [⟨addr, len⟩]
                (0x9000 + to_int ((base.start + 18446744073709551616 - root.start) %
                  18446744073709551616) * 4) with
            | none => none
            | some ws =>
              some (some ⟨base, (((len + 4095) / 4096 : Nat) : Int),
                to_int ((base.start + 18446744073709551616 - root.start) %
                  18446744073709551616)⟩, root', ws) := by
    unfold iommu_allocate_sgtable
    simp only [ht, htd, hrs]
    rw [if_neg hc2, if_neg hc3]
  rw [hA, hB]
  cases kz
  · rfl
  · simp only [Bool.not_true, Bool.false_eq_true, if_false]
    cases halloc : allocate_resource root ((len + 4095) / 4096) with
    | none => rfl
    | some p =>
      obtain ⟨base, root'⟩ := p
      have hsp := allocate_resource_spec root hok _ base root' halloc
      have hoff : to_int ((base.start + 18446744073709551616 - root.start) %
          18446744073709551616) = (base.start : Int) := by
        rw [hs, Nat.sub_zero, Nat.add_mod_right, Nat.mod_eq_of_lt (by omega),
          to_int_of_lt _ (by omega)]
      simp only [hoff]
      rw [if_neg (by unfold INT_MAX; omega)]
      obtain ⟨⟨pos', ws1⟩, hseg⟩ := sg_segment_loop_defined len (len / 4096 + 2) 0
        (addr >>> 12) (0x9000 + (base.start : Int) * 4) (le_refl _)
        (by simp only [Int.toNat_zero]; omega)
        (by unfold INT_MAX; simp only [Int.toNat_zero]; omega)
        (by unfold INT_MAX; simp only [Int.toNat_zero]; omega)
      obtain ⟨e1, _, _⟩ := sg_segment_loop_eq len _ 0 (addr >>> 12)
        (0x9000 + (base.start : Int) * 4) (le_refl _) (by unfold INT_MAX; omega)
        (by unfold INT_MAX; omega) pos' ws1 hseg
      simp only [Int.toNat_zero, Nat.sub_zero] at e1
      have e2 := iommu_allocate_loop_eq addr ((len + 4095) / 4096) (base.start : Int) 0
      simp only [Nat.cast_zero, Nat.zero_add] at e2
      simp only [sg_loop, hseg, List.append_nil, e2, e1]
      congr 4
      funext k
      congr 1
      ring

/-- Witness of C19: 8192 bytes at `0x5000` with pages 0 and 1 occupied. -/
theorem sgtable_single_segment_agrees_witness :
    iommu_allocate true ⟨0, 4095, [⟨0, 1⟩]⟩ 8192 0x5000 =
        (some ⟨⟨2, 3⟩, 2, 2⟩, ⟨0, 4095, [⟨0, 1⟩, ⟨2, 3⟩]⟩, [⟨5, 0x9008⟩, ⟨6, 0x900c⟩]) ∧
      iommu_allocate_sgtable true ⟨0, 4095, [⟨0, 1⟩]⟩ [⟨0x5000, 8192⟩] =
        some (iommu_allocate true ⟨0, 4095, [⟨0, 1⟩]⟩ 8192 0x5000) :=
  ⟨by decide,
    sgtable_single_segment_agrees true ⟨0, 4095, [⟨0, 1⟩]⟩ (by decide) 0x5000 8192 (by decide)
      (by decide)⟩

end Bcwc
